import Mathlib

/-!
Verification development for the one-file chess engine (src/main.cpp).

Bitboards are 64-bit words, embedded as `Nat` with explicit `< 2^64`
well-formedness where it matters.  XOR/AND/OR/shift mirror the C operators.
The Zobrist key tables (filled by `initZobrist` from `rand()` in the C code)
are abstracted as an arbitrary `ZKeys` parameter, since their concrete values
are implementation-defined; all hashing claims hold for every key table.
-/

namespace Engine

/-- 64-bit all-ones word; `x &&& MASK64` and `MASK64 ^^^ x` model U64
truncation and complement. -/
def MASK64 : Nat := 2 ^ 64 - 1

/-- `__builtin_ctzll`: index of the least significant set bit.  Structural
fuel recursion so that proofs by kernel evaluation work; 64 steps suffice
for a 64-bit word (the C code never passes 0). -/
def ctzAux : Nat → Nat → Nat
  | _, 0 => 0
  | bb, fuel + 1 => if bb % 2 = 1 then 0 else ctzAux (bb / 2) fuel + 1

def ctz (bb : Nat) : Nat := ctzAux bb 64

/-- `__builtin_popcountll`: number of set bits, with the same fuel style. -/
def popcountAux : Nat → Nat → Nat
  | _, 0 => 0
  | bb, fuel + 1 => if bb = 0 then 0 else bb % 2 + popcountAux (bb / 2) fuel

def popcount (bb : Nat) : Nat := popcountAux bb 64

/-- The set-bit indices of `bb` in ascending order, exactly as the C idiom
`while (bb) { sq = ctz(bb); ...; bb &= bb - 1; }` visits them; a 64-bit
word has at most 64 set bits, so 64 iterations suffice. -/
def bitListAux : Nat → Nat → List Nat
  | _, 0 => []
  | bb, fuel + 1 => if bb = 0 then [] else ctz bb :: bitListAux (bb &&& (bb - 1)) fuel

def bitList (bb : Nat) : List Nat := bitListAux bb 64

/-- XOR of `key i` over the set bits `i < n` of `bb`; canonical form used to
reason about Zobrist hashing. -/
def hashBits (key : Nat → Nat) (bb : Nat) : Nat → Nat
  | 0 => 0
  | n + 1 => hashBits key bb n ^^^ (if bb.testBit n then key n else 0)

/-- Number of set bits `i < n` of `bb`; canonical form used to reason about
popcounts. -/
def bitSum (bb : Nat) : Nat → Nat
  | 0 => 0
  | n + 1 => bitSum bb n + (if bb.testBit n then 1 else 0)

theorem testBit_succ_div2 (n i : Nat) : n.testBit (i + 1) = (n / 2).testBit i := by
  simpa [Nat.shiftRight_succ] using (Nat.testBit_succ n i)

theorem xor_left_comm (a b c : Nat) : a ^^^ (b ^^^ c) = b ^^^ (a ^^^ c) := by
  rw [← Nat.xor_assoc, Nat.xor_comm a b, Nat.xor_assoc]

theorem xor_cancel_left (a b : Nat) : a ^^^ (a ^^^ b) = b := by
  rw [← Nat.xor_assoc, Nat.xor_self, Nat.zero_xor]

theorem zero_testBit_eq (i : Nat) : (0 : Nat).testBit i = false := Nat.zero_testBit i

theorem ctzAux_spec : ∀ fuel bb, bb ≠ 0 → bb < 2 ^ fuel →
    bb.testBit (ctzAux bb fuel) = true := by
  intro fuel
  induction fuel with
  | zero =>
    intro bb h0 hlt
    simp at hlt
    omega
  | succ fuel ih =>
    intro bb h0 hlt
    by_cases hodd : bb % 2 = 1
    · simp [ctzAux, hodd, Nat.testBit_zero]
    · have hstep : ctzAux bb (fuel + 1) = ctzAux (bb / 2) fuel + 1 := by
        simp [ctzAux, hodd]
      rw [hstep, testBit_succ_div2]
      have hpow : (2 : Nat) ^ (fuel + 1) = 2 ^ fuel * 2 := by rw [Nat.pow_succ]
      exact ih (bb / 2) (by omega) (by omega)

theorem ctz_spec (bb : Nat) (h0 : bb ≠ 0) (hlt : bb < 2 ^ 64) :
    bb.testBit (ctz bb) = true :=
  ctzAux_spec 64 bb h0 hlt

theorem ctz_lt_64 (bb : Nat) (h0 : bb ≠ 0) (hlt : bb < 2 ^ 64) : ctz bb < 64 := by
  have hbit := ctz_spec bb h0 hlt
  by_contra hge
  have : bb < 2 ^ ctz bb :=
    Nat.lt_of_lt_of_le hlt (Nat.pow_le_pow_right (by decide) (by omega))
  rw [Nat.testBit_lt_two_pow this] at hbit
  exact Bool.noConfusion hbit

theorem and_pred_testBitAux :
    ∀ fuel bb, bb ≠ 0 → bb < 2 ^ fuel →
      ∀ i, (bb &&& (bb - 1)).testBit i = (bb.testBit i && !(decide (i = ctzAux bb fuel))) := by
  intro fuel
  induction fuel with
  | zero =>
    intro bb h0 hlt
    simp at hlt
    omega
  | succ fuel ih =>
    intro bb h0 hlt i
    rw [Nat.testBit_and]
    by_cases hodd : bb % 2 = 1
    · have hstep : ctzAux bb (fuel + 1) = 0 := by simp [ctzAux, hodd]
      rw [hstep]
      cases i with
      | zero =>
        have h1 : (bb - 1) % 2 = 0 := by omega
        simp [Nat.testBit_zero, h1]
      | succ j =>
        have h2 : (bb - 1) / 2 = bb / 2 := by omega
        rw [testBit_succ_div2, testBit_succ_div2, h2]
        simp
    · have hstep : ctzAux bb (fuel + 1) = ctzAux (bb / 2) fuel + 1 := by
        simp [ctzAux, hodd]
      rw [hstep]
      have hbb0 : bb % 2 = 0 := by omega
      cases i with
      | zero =>
        simp [Nat.testBit_zero, hbb0]
      | succ j =>
        have h2 : (bb - 1) / 2 = bb / 2 - 1 := by omega
        have hhalf : bb / 2 ≠ 0 := by omega
        have hpow : (2 : Nat) ^ (fuel + 1) = 2 ^ fuel * 2 := by rw [Nat.pow_succ]
        rw [testBit_succ_div2, testBit_succ_div2, h2]
        have hih := ih (bb / 2) hhalf (by omega) j
        rw [Nat.testBit_and] at hih
        rw [hih]
        have hd : (decide (j + 1 = ctzAux (bb / 2) fuel + 1))
            = (decide (j = ctzAux (bb / 2) fuel)) := by simp
        rw [hd]

theorem and_pred_testBit (bb : Nat) (h0 : bb ≠ 0) (hlt : bb < 2 ^ 64) (i : Nat) :
    (bb &&& (bb - 1)).testBit i = (bb.testBit i && !(decide (i = ctz bb))) :=
  and_pred_testBitAux 64 bb h0 hlt i

theorem and_pred_eq_xor (bb : Nat) (hne : bb ≠ 0) (hlt : bb < 2 ^ 64) :
    bb &&& (bb - 1) = bb ^^^ (1 <<< ctz bb) := by
  apply Nat.eq_of_testBit_eq
  intro i
  rw [and_pred_testBit bb hne hlt i, Nat.testBit_xor]
  have h1 : (1 <<< ctz bb : Nat) = 2 ^ ctz bb := by simp [Nat.shiftLeft_eq]
  rw [h1, Nat.testBit_two_pow]
  by_cases h : i = ctz bb
  · subst h
    simp [ctz_spec bb hne hlt]
  · have h3 : ctz bb ≠ i := fun h2 => h h2.symm
    have d1 : decide (i = ctz bb) = false := decide_eq_false h
    have d2 : decide (ctz bb = i) = false := decide_eq_false h3
    simp [d1, d2]

theorem hashBits_xor (key : Nat → Nat) (x y : Nat) :
    ∀ n, hashBits key (x ^^^ y) n = hashBits key x n ^^^ hashBits key y n := by
  intro n
  induction n with
  | zero => simp [hashBits]
  | succ n ih =>
    simp only [hashBits, ih, Nat.testBit_xor]
    cases hx : x.testBit n <;> cases hy : y.testBit n <;>
      simp [Nat.xor_assoc, Nat.xor_comm, xor_left_comm, xor_cancel_left]

theorem hashBits_two_pow (key : Nat → Nat) (z : Nat) :
    ∀ n, hashBits key (1 <<< z) n = if z < n then key z else 0 := by
  intro n
  induction n with
  | zero => simp [hashBits]
  | succ n ih =>
    rw [hashBits, ih]
    have h1 : (1 <<< z : Nat) = 2 ^ z := by simp [Nat.shiftLeft_eq]
    rw [h1, Nat.testBit_two_pow]
    by_cases h : z = n
    · subst h
      simp
    · by_cases h2 : z < n
      · have h3 : z < n + 1 := by omega
        simp [h, h2, h3]
      · have h3 : ¬ z < n + 1 := by omega
        simp [h, h2, h3]

theorem hashBits_zero (key : Nat → Nat) : ∀ n, hashBits key 0 n = 0 := by
  intro n
  induction n with
  | zero => rfl
  | succ n ih => simp [hashBits, ih]

theorem hashBits_of_lt (key : Nat → Nat) (bb : Nat) {n m : Nat}
    (hbb : bb < 2 ^ n) (hnm : n ≤ m) : hashBits key bb m = hashBits key bb n := by
  induction m with
  | zero =>
    have : n = 0 := by omega
    subst this; rfl
  | succ m ih =>
    by_cases h : n = m + 1
    · subst h; rfl
    · have hle : n ≤ m := by omega
      have hbit : bb.testBit m = false :=
        Nat.testBit_lt_two_pow (Nat.lt_of_lt_of_le hbb (Nat.pow_le_pow_right (by decide) hle))
      simp [hashBits, hbit, ih hle]

theorem foldl_xor_acc (key : Nat → Nat) (l : List Nat) :
    ∀ a : Nat, l.foldl (fun h s => h ^^^ key s) a
      = a ^^^ l.foldl (fun h s => h ^^^ key s) 0 := by
  induction l with
  | nil => simp
  | cons x xs ih =>
    intro a
    simp only [List.foldl_cons]
    rw [ih (a ^^^ key x), ih (0 ^^^ key x)]
    simp [Nat.xor_assoc]

theorem bitSum_zero : ∀ n, bitSum 0 n = 0 := by
  intro n
  induction n with
  | zero => rfl
  | succ n ih => simp [bitSum, ih]

theorem testBit_false_of_bitSum_eq_zero :
    ∀ n bb, bitSum bb n = 0 → ∀ i, i < n → bb.testBit i = false := by
  intro n
  induction n with
  | zero => intro bb _ i hi; omega
  | succ n ih =>
    intro bb h i hi
    have h1 : bitSum bb (n + 1) = bitSum bb n + (if bb.testBit n then 1 else 0) := rfl
    rw [h1] at h
    by_cases hc : i = n
    · subst hc
      by_contra hbit
      simp [Bool.not_eq_false] at hbit
      simp [hbit] at h
    · exact ih bb (by omega) i (by omega)

theorem eq_zero_of_bitSum_eq_zero (n bb : Nat) (hlt : bb < 2 ^ n)
    (h : bitSum bb n = 0) : bb = 0 := by
  apply Nat.eq_of_testBit_eq
  intro i
  rw [zero_testBit_eq]
  by_cases hi : i < n
  · exact testBit_false_of_bitSum_eq_zero n bb h i hi
  · exact Nat.testBit_lt_two_pow
      (Nat.lt_of_lt_of_le hlt (Nat.pow_le_pow_right (by decide) (by omega)))

theorem bitSum_succ_shift : ∀ n bb, bitSum bb (n + 1) = bb % 2 + bitSum (bb / 2) n := by
  intro n
  induction n with
  | zero =>
    intro bb
    simp only [bitSum, Nat.testBit_zero]
    by_cases h : bb % 2 = 1
    · simp [h]
    · simp [h]
      omega
  | succ n ih =>
    intro bb
    have h1 : bitSum bb (n + 1 + 1) = bitSum bb (n + 1) + (if bb.testBit (n + 1) then 1 else 0) := rfl
    rw [h1, ih bb, testBit_succ_div2]
    have h2 : bitSum (bb / 2) (n + 1) = bitSum (bb / 2) n + (if (bb / 2).testBit n then 1 else 0) := rfl
    rw [h2]
    omega

theorem popcountAux_eq_bitSum : ∀ n bb, bb < 2 ^ n → popcountAux bb n = bitSum bb n := by
  intro n
  induction n with
  | zero =>
    intro bb hlt
    have : bb = 0 := by simp at hlt; omega
    subst this
    rfl
  | succ n ih =>
    intro bb hlt
    by_cases h0 : bb = 0
    · simp [h0, popcountAux, bitSum_zero]
    · have hstep : popcountAux bb (n + 1) = bb % 2 + popcountAux (bb / 2) n := by
        simp [popcountAux, h0]
      have hpow : (2 : Nat) ^ (n + 1) = 2 ^ n * 2 := by rw [Nat.pow_succ]
      rw [hstep, bitSum_succ_shift, ih (bb / 2) (by omega)]

theorem popcount_eq_bitSum (bb : Nat) (hlt : bb < 2 ^ 64) : popcount bb = bitSum bb 64 :=
  popcountAux_eq_bitSum 64 bb hlt

theorem bitSum_le : ∀ n bb, bitSum bb n ≤ n := by
  intro n bb
  induction n with
  | zero => exact Nat.le_refl 0
  | succ n ih =>
    have h1 : bitSum bb (n + 1) = bitSum bb n + (if bb.testBit n then 1 else 0) := rfl
    rw [h1]
    by_cases h : bb.testBit n <;> simp [h] <;> omega


theorem bitSum_or_disjoint (a b : Nat) (hd : a &&& b = 0) :
    ∀ n, bitSum (a ||| b) n = bitSum a n + bitSum b n := by
  intro n
  induction n with
  | zero => rfl
  | succ n ih =>
    have hnot : ¬ (a.testBit n = true ∧ b.testBit n = true) := by
      intro ⟨ha, hb⟩
      have := Nat.testBit_and a b n
      rw [hd, zero_testBit_eq, ha, hb] at this
      exact Bool.noConfusion this
    have h1 : bitSum (a ||| b) (n + 1)
        = bitSum (a ||| b) n + (if (a ||| b).testBit n then 1 else 0) := rfl
    rw [h1, ih, Nat.testBit_or]
    have h2 : bitSum a (n + 1) = bitSum a n + (if a.testBit n then 1 else 0) := rfl
    have h3 : bitSum b (n + 1) = bitSum b n + (if b.testBit n then 1 else 0) := rfl
    rw [h2, h3]
    cases ha : a.testBit n <;> cases hb : b.testBit n <;> simp [ha, hb] at hnot ⊢ <;> omega

theorem bitSum_and_le (a b : Nat) : ∀ n, bitSum (a &&& b) n ≤ bitSum b n := by
  intro n
  induction n with
  | zero => exact Nat.le_refl 0
  | succ n ih =>
    have h1 : bitSum (a &&& b) (n + 1)
        = bitSum (a &&& b) n + (if (a &&& b).testBit n then 1 else 0) := rfl
    have h2 : bitSum b (n + 1) = bitSum b n + (if b.testBit n then 1 else 0) := rfl
    rw [h1, h2, Nat.testBit_and]
    cases ha : a.testBit n <;> cases hb : b.testBit n <;> simp [ha, hb] <;> omega

theorem bitSum_congr (x y : Nat) : ∀ n, (∀ i, i < n → x.testBit i = y.testBit i) →
    bitSum x n = bitSum y n := by
  intro n
  induction n with
  | zero => intro _; rfl
  | succ n ih =>
    intro h
    have h1 : bitSum x (n + 1) = bitSum x n + (if x.testBit n then 1 else 0) := rfl
    have h2 : bitSum y (n + 1) = bitSum y n + (if y.testBit n then 1 else 0) := rfl
    rw [h1, h2, ih (fun i hi => h i (by omega)), h n (by omega)]

theorem bitSum_clear_bit : ∀ n x z, x.testBit z = true → z < n →
    bitSum x n = bitSum (x ^^^ (1 <<< z)) n + 1 := by
  intro n
  induction n with
  | zero => intro x z _ hz; omega
  | succ n ih =>
    intro x z hbit hz
    have hpow : (1 <<< z : Nat) = 2 ^ z := by simp [Nat.shiftLeft_eq]
    have h1 : bitSum x (n + 1) = bitSum x n + (if x.testBit n then 1 else 0) := rfl
    have h2 : bitSum (x ^^^ (1 <<< z)) (n + 1)
        = bitSum (x ^^^ (1 <<< z)) n + (if (x ^^^ (1 <<< z)).testBit n then 1 else 0) := rfl
    rw [h1, h2]
    by_cases hcase : z = n
    · subst hcase
      have hy : (x ^^^ (1 <<< z)).testBit z = false := by
        rw [Nat.testBit_xor, hpow, Nat.testBit_two_pow, hbit]
        simp
      have hagree : bitSum x z = bitSum (x ^^^ (1 <<< z)) z := by
        apply bitSum_congr
        intro i hi
        rw [Nat.testBit_xor, hpow, Nat.testBit_two_pow]
        have : decide (z = i) = false := decide_eq_false (by omega)
        simp [this]
      rw [hagree, hbit, hy]
      simp
    · have hn : (x ^^^ (1 <<< z)).testBit n = x.testBit n := by
        rw [Nat.testBit_xor, hpow, Nat.testBit_two_pow]
        have : decide (z = n) = false := decide_eq_false hcase
        simp [this]
      rw [hn, ih x z hbit (by omega)]
      omega

theorem bitSum_and_pred (bb : Nat) (h0 : bb ≠ 0) (hlt : bb < 2 ^ 64) :
    bitSum bb 64 = bitSum (bb &&& (bb - 1)) 64 + 1 := by
  rw [and_pred_eq_xor bb h0 hlt]
  exact bitSum_clear_bit 64 bb (ctz bb) (ctz_spec bb h0 hlt) (ctz_lt_64 bb h0 hlt)

theorem bitListAux_foldl_xor (key : Nat → Nat) :
    ∀ fuel bb, bb < 2 ^ 64 → bitSum bb 64 ≤ fuel →
      (bitListAux bb fuel).foldl (fun h s => h ^^^ key s) 0 = hashBits key bb 64 := by
  intro fuel
  induction fuel with
  | zero =>
    intro bb hlt hfuel
    have : bb = 0 := eq_zero_of_bitSum_eq_zero 64 bb hlt (by omega)
    subst this
    simp [bitListAux, hashBits_zero]
  | succ fuel ih =>
    intro bb hlt hfuel
    by_cases h0 : bb = 0
    · simp [h0, bitListAux, hashBits_zero]
    · have hstep : bitListAux bb (fuel + 1) = ctz bb :: bitListAux (bb &&& (bb - 1)) fuel := by
        simp [bitListAux, h0]
      have hcnt := bitSum_and_pred bb h0 hlt
      have hlt2 : bb &&& (bb - 1) < 2 ^ 64 :=
        Nat.lt_of_le_of_lt Nat.and_le_left hlt
      rw [hstep, List.foldl_cons, foldl_xor_acc, ih (bb &&& (bb - 1)) hlt2 (by omega)]
      rw [and_pred_eq_xor bb h0 hlt, hashBits_xor, hashBits_two_pow]
      have hz : ctz bb < 64 := ctz_lt_64 bb h0 hlt
      simp only [hz, if_true]
      simp [Nat.xor_assoc, Nat.xor_comm, xor_left_comm, xor_cancel_left]

theorem bitList_foldl_xor (key : Nat → Nat) (bb : Nat) (hlt : bb < 2 ^ 64) :
    (bitList bb).foldl (fun h s => h ^^^ key s) 0 = hashBits key bb 64 :=
  bitListAux_foldl_xor key 64 bb hlt (bitSum_le 64 bb)

theorem mem_bitListAux_testBit :
    ∀ fuel bb, bb < 2 ^ 64 → ∀ x, x ∈ bitListAux bb fuel → bb.testBit x = true := by
  intro fuel
  induction fuel with
  | zero => intro bb _ x hx; simp [bitListAux] at hx
  | succ fuel ih =>
    intro bb hlt x hx
    by_cases h0 : bb = 0
    · simp [h0, bitListAux] at hx
    · rw [show bitListAux bb (fuel + 1) = ctz bb :: bitListAux (bb &&& (bb - 1)) fuel from by
        simp [bitListAux, h0]] at hx
      rcases List.mem_cons.mp hx with h | h
      · rw [h]
        exact ctz_spec bb h0 hlt
      · have hlt2 : bb &&& (bb - 1) < 2 ^ 64 := Nat.lt_of_le_of_lt Nat.and_le_left hlt
        have := ih (bb &&& (bb - 1)) hlt2 x h
        rw [and_pred_testBit bb h0 hlt x] at this
        exact (Bool.and_eq_true_iff.mp this).1

theorem mem_bitList_testBit (bb : Nat) (hlt : bb < 2 ^ 64) (x : Nat)
    (hx : x ∈ bitList bb) : bb.testBit x = true :=
  mem_bitListAux_testBit 64 bb hlt x hx

theorem mem_bitList_lt (bb x : Nat) (hbb : bb < 2 ^ 64) (hx : x ∈ bitList bb) : x < 64 := by
  by_contra hge
  have hb := mem_bitList_testBit bb hbb x hx
  have : bb < 2 ^ x :=
    Nat.lt_of_lt_of_le hbb (Nat.pow_le_pow_right (by decide) (by omega))
  rw [Nat.testBit_lt_two_pow this] at hb
  exact Bool.noConfusion hb

theorem bitListAux_length :
    ∀ fuel bb, bb < 2 ^ 64 → bitSum bb 64 ≤ fuel →
      (bitListAux bb fuel).length = bitSum bb 64 := by
  intro fuel
  induction fuel with
  | zero =>
    intro bb hlt hfuel
    have : bb = 0 := eq_zero_of_bitSum_eq_zero 64 bb hlt (by omega)
    subst this
    simp [bitListAux, bitSum_zero]
  | succ fuel ih =>
    intro bb hlt hfuel
    by_cases h0 : bb = 0
    · simp [h0, bitListAux, bitSum_zero]
    · rw [show bitListAux bb (fuel + 1) = ctz bb :: bitListAux (bb &&& (bb - 1)) fuel from by
        simp [bitListAux, h0]]
      have hcnt := bitSum_and_pred bb h0 hlt
      have hlt2 : bb &&& (bb - 1) < 2 ^ 64 := Nat.lt_of_le_of_lt Nat.and_le_left hlt
      rw [List.length_cons, ih (bb &&& (bb - 1)) hlt2 (by omega)]
      omega

theorem bitList_length (bb : Nat) (hlt : bb < 2 ^ 64) :
    (bitList bb).length = bitSum bb 64 :=
  bitListAux_length 64 bb hlt (bitSum_le 64 bb)

theorem foldr_or_testBit : ∀ l : List Nat, ∀ i,
    (l.foldr (fun x y => x ||| y) 0).testBit i = l.any (fun x => x.testBit i) := by
  intro l i
  induction l with
  | nil => simp [zero_testBit_eq]
  | cons x xs ih => simp [List.foldr_cons, Nat.testBit_or, ih]

theorem and_foldr_or_eq_zero (a : Nat) (l : List Nat) (h : ∀ x ∈ l, a &&& x = 0) :
    a &&& l.foldr (fun x y => x ||| y) 0 = 0 := by
  apply Nat.eq_of_testBit_eq
  intro i
  rw [Nat.testBit_and, foldr_or_testBit, zero_testBit_eq]
  by_cases ha : a.testBit i = true
  · simp only [ha, Bool.true_and]
    rw [List.any_eq_false]
    intro x hx
    have := Nat.testBit_and a x i
    rw [h x hx, zero_testBit_eq, ha] at this
    simpa using this.symm
  · simp [Bool.eq_false_iff.mpr ha]

theorem sum_bitSum_pairwise_disjoint (n : Nat) :
    ∀ l : List Nat, l.Pairwise (fun a b => a &&& b = 0) →
      (l.map (fun bb => bitSum bb n)).sum = bitSum (l.foldr (fun x y => x ||| y) 0) n := by
  intro l hl
  induction l with
  | nil => simp [bitSum_zero]
  | cons x xs ih =>
    rw [List.pairwise_cons] at hl
    have hx : x &&& xs.foldr (fun x y => x ||| y) 0 = 0 :=
      and_foldr_or_eq_zero x xs hl.1
    simp only [List.map_cons, List.sum_cons, List.foldr_cons]
    rw [ih hl.2, bitSum_or_disjoint x _ hx]

/-! Enumerations and constants from the C source. -/

abbrev PAWN : Nat := 0
abbrev KNIGHT : Nat := 1
abbrev BISHOP : Nat := 2
abbrev ROOK : Nat := 3
abbrev QUEEN : Nat := 4
abbrev KING : Nat := 5
abbrev WHITE : Nat := 0
abbrev BLACK : Nat := 1

def INF : Int := 999999
def MATE : Int := 100000
def MAX_QUIESCENCE_DEPTH : Int := 6
def MAX_PLY : Nat := 128
def TT_SIZE : Nat := 1 <<< 20

/-- `initTables`: king step offsets, in the loop order of the C code
(dx outer from -1 to 1, dy inner, skipping (0,0)); dx moves along files. -/
def kingOffsets : List (Int × Int) :=
  [(-1, -1), (-1, 0), (-1, 1), (0, -1), (0, 1), (1, -1), (1, 0), (1, 1)]

/-- `initTables`: knight jump offsets `(kdx[i], kdy[i])`. -/
def knightOffsets : List (Int × Int) :=
  [(2, 1), (2, -1), (-2, 1), (-2, -1), (1, 2), (1, -2), (-1, 2), (-1, -2)]

def stepTable (offs : List (Int × Int)) (sq : Nat) : Nat :=
  let x : Int := (sq % 8 : Nat)
  let y : Int := (sq / 8 : Nat)
  offs.foldl
    (fun acc d =>
      let nx := x + d.1
      let ny := y + d.2
      if 0 ≤ nx ∧ nx < 8 ∧ 0 ≤ ny ∧ ny < 8 then acc ||| (1 <<< (ny * 8 + nx).toNat)
      else acc)
    0

/-- `KingMoves[sq]` as computed by `initTables`. -/
def KingMoves (sq : Nat) : Nat := stepTable kingOffsets sq

/-- `KnightMoves[sq]` as computed by `initTables`. -/
def KnightMoves (sq : Nat) : Nat := stepTable knightOffsets sq

/-- One ray of the classical sliding-attack loops: OR in each square,
stopping after (and including) the first blocker. -/
def rayAttacks (blockers : Nat) : List Nat → Nat
  | [] => 0
  | s :: rest =>
    (1 <<< s) ||| (if (1 <<< s) &&& blockers ≠ 0 then 0 else rayAttacks blockers rest)

/-- `get_rook_attacks(sq, blockers)`: four orthogonal rays. -/
def get_rook_attacks (sq : Nat) (blockers : Nat) : Nat :=
  let tr := sq / 8
  let tf := sq % 8
  rayAttacks blockers ((List.range' (tr + 1) (7 - tr)).map (fun r => r * 8 + tf)) |||
  rayAttacks blockers ((List.range tr).reverse.map (fun r => r * 8 + tf)) |||
  rayAttacks blockers ((List.range' (tf + 1) (7 - tf)).map (fun f => tr * 8 + f)) |||
  rayAttacks blockers ((List.range tf).reverse.map (fun f => tr * 8 + f))

/-- `get_bishop_attacks(sq, blockers)`: four diagonal rays. -/
def get_bishop_attacks (sq : Nat) (blockers : Nat) : Nat :=
  let tr := sq / 8
  let tf := sq % 8
  rayAttacks blockers
    ((List.range' 1 (min (7 - tr) (7 - tf))).map (fun k => (tr + k) * 8 + (tf + k))) |||
  rayAttacks blockers
    ((List.range' 1 (min (7 - tr) tf)).map (fun k => (tr + k) * 8 + (tf - k))) |||
  rayAttacks blockers
    ((List.range' 1 (min tr (7 - tf))).map (fun k => (tr - k) * 8 + (tf + k))) |||
  rayAttacks blockers
    ((List.range' 1 (min tr tf)).map (fun k => (tr - k) * 8 + (tf - k)))

/-! The position. -/

/-- The Zobrist key tables filled by `initZobrist`; kept abstract because the
C values come from implementation-defined `rand()`. -/
structure ZKeys where
  piece : Nat → Nat → Nat → Nat
  castle : Nat → Nat
  ep : Nat → Nat
  side : Nat

/-- `struct Board`: `pieces[2][6]`, `occupied[2]`, `all`, `side`, `ep`,
`castle`, `hash`.  `ep` is a C int with `-1` meaning none. -/
structure Board where
  pieces : Nat → Nat → Nat
  occupied : Nat → Nat
  all : Nat
  side : Nat
  ep : Int
  castle : Nat
  hash : Nat

/-- Write `pieces[c][p] = v` on the function representation. -/
def setPiece (f : Nat → Nat → Nat) (c p : Nat) (v : Nat) : Nat → Nat → Nat :=
  fun c2 p2 => if c2 = c ∧ p2 = p then v else f c2 p2

/-- `Board::update()`: rebuild `occupied[2]` and `all` from the piece
bitboards. -/
def Board.update (b : Board) : Board :=
  let occW := (List.range 6).foldl (fun acc p => acc ||| b.pieces WHITE p) 0
  let occB := (List.range 6).foldl (fun acc p => acc ||| b.pieces BLACK p) 0
  { b with
    occupied := fun c => if c = WHITE then occW else if c = BLACK then occB else b.occupied c,
    all := occW ||| occB }

/-- `zobristHash(b)`: XOR of piece-square keys over every set bit of every
bitboard, the castle key, the en-passant key if `ep != -1`, and the side key
if black to move. -/
def zobristHash (K : ZKeys) (b : Board) : Nat :=
  let h :=
    (List.range 2).foldl (fun h c =>
      (List.range 6).foldl (fun h p =>
        (bitList (b.pieces c p)).foldl (fun h sq => h ^^^ K.piece c p sq) h) h) 0
  let h := h ^^^ K.castle b.castle
  let h := if b.ep ≠ -1 then h ^^^ K.ep b.ep.toNat else h
  if b.side = BLACK then h ^^^ K.side else h

/-- `is_attacked(sq, attacker, b)`. -/
def is_attacked (sq : Nat) (attacker : Nat) (b : Board) : Bool :=
  let pawnHit : Bool :=
    if attacker = WHITE then
      (decide (9 ≤ sq) && decide (sq % 8 ≠ 0) &&
        decide ((1 <<< (sq - 9)) &&& b.pieces WHITE PAWN ≠ 0)) ||
      (decide (7 ≤ sq) && decide (sq % 8 ≠ 7) &&
        decide ((1 <<< (sq - 7)) &&& b.pieces WHITE PAWN ≠ 0))
    else
      (decide (sq ≤ 56) && decide (sq % 8 ≠ 0) &&
        decide ((1 <<< (sq + 7)) &&& b.pieces BLACK PAWN ≠ 0)) ||
      (decide (sq ≤ 54) && decide (sq % 8 ≠ 7) &&
        decide ((1 <<< (sq + 9)) &&& b.pieces BLACK PAWN ≠ 0))
  pawnHit ||
  decide (KnightMoves sq &&& b.pieces attacker KNIGHT ≠ 0) ||
  decide (KingMoves sq &&& b.pieces attacker KING ≠ 0) ||
  decide (get_rook_attacks sq b.all &&& (b.pieces attacker ROOK ||| b.pieces attacker QUEEN) ≠ 0) ||
  decide (get_bishop_attacks sq b.all &&& (b.pieces attacker BISHOP ||| b.pieces attacker QUEEN) ≠ 0)

/-- `isInCheck(b)`: false when the side to move has no king. -/
def isInCheck (b : Board) : Bool :=
  if b.pieces b.side KING = 0 then false
  else is_attacked (ctz (b.pieces b.side KING)) (1 - b.side) b

/-- `values[] = {100, 320, 330, 500, 900, 0}` in `Board::evaluate`. -/
def pieceValue (p : Nat) : Int :=
  if p = 0 then 100 else if p = 1 then 320 else if p = 2 then 330
  else if p = 3 then 500 else if p = 4 then 900 else 0

/-- The d4/e4/d5/e5 mask `0x0000001818000000ULL`. -/
def centerMask : Nat := 0x0000001818000000

/-- `Board::evaluate()`: material, king placement, centre pawns, pawn rank
bonuses, negated for black to move. -/
def Board.evaluate (b : Board) : Int :=
  let ev : Int := 0
  let ev :=
    (List.range 2).foldl (fun ev c =>
      (List.range 6).foldl (fun ev p =>
        let count : Int := (popcount (b.pieces c p) : Nat)
        ev + (if c = WHITE then count else -count) * pieceValue p) ev) ev
  let ev :=
    (List.range 2).foldl (fun ev c =>
      if b.pieces c KING = 0 then ev
      else
        let king_sq := ctz (b.pieces c KING)
        if c = WHITE then
          if king_sq = 6 ∨ king_sq = 2 then ev + 40
          else if king_sq = 4 then ev - 20
          else ev
        else
          if king_sq = 62 ∨ king_sq = 58 then ev - 40
          else if king_sq = 60 then ev + 20
          else ev) ev
  let ev := ev +
    ((popcount (b.pieces WHITE PAWN &&& centerMask) : Int) -
     (popcount (b.pieces BLACK PAWN &&& centerMask) : Int)) * 20
  let ev :=
    (bitList (b.pieces WHITE PAWN)).foldl (fun ev sq =>
      let rank : Nat := sq / 8
      if 4 ≤ rank then ev + ((rank : Int) - 3) * 15 else ev) ev
  let ev :=
    (bitList (b.pieces BLACK PAWN)).foldl (fun ev sq =>
      let rank : Nat := sq / 8
      if rank ≤ 3 then ev - (4 - (rank : Int)) * 15 else ev) ev
  if b.side = WHITE then ev else -ev

/-- `struct Move`: fields in source order; `from`/`to` are spelled
`fromSq`/`toSq` because `from` is reserved in Lean. -/
structure Move where
  fromSq : Nat
  toSq : Nat
  score : Int
  piece : Nat
  captured : Int
  promo : Nat
deriving DecidableEq

/-- The C constructor `Move(f, t, p, c, pr)` with `score(0)`. -/
def mkMove (f t p : Nat) (c : Int) (pr : Nat) : Move :=
  { fromSq := f, toSq := t, score := 0, piece := p, captured := c, promo := pr }

/-- `Move::operator==`: compares `(from, to, promo)` only. -/
def moveEq (a b : Move) : Bool :=
  a.fromSq == b.fromSq && a.toSq == b.toSq && a.promo == b.promo

/-- `Board::init()`: the start position piece bitboards. -/
def startPieces : Nat → Nat → Nat := fun c p =>
  if c = WHITE then
    if p = PAWN then 0xFF00
    else if p = KNIGHT then 0x42
    else if p = BISHOP then 0x24
    else if p = ROOK then 0x81
    else if p = QUEEN then 0x8
    else if p = KING then 0x10
    else 0
  else if c = BLACK then
    if p = PAWN then 0xFF000000000000
    else if p = KNIGHT then 0x4200000000000000
    else if p = BISHOP then 0x2400000000000000
    else if p = ROOK then 0x8100000000000000
    else if p = QUEEN then 0x800000000000000
    else if p = KING then 0x1000000000000000
    else 0
  else 0

/-- `Board::init()`: start pieces, `update()`, white to move, no ep, all
castling rights, hash from scratch. -/
def Board.init (K : ZKeys) : Board :=
  let b : Board :=
    { pieces := startPieces, occupied := fun _ => 0, all := 0,
      side := WHITE, ep := -1, castle := 15, hash := 0 }
  let b := b.update
  { b with hash := zobristHash K b }

/-! `makeMove` (C lines 350-431).  The C code interleaves the hash XORs with
the field writes; here every hash XOR is grouped with the field update it
mirrors.  This preserves the overall effect: the stages run in C statement
order, and no stage reads a field that a later C statement would still
change (the pre-move `ep` is snapshotted exactly as in the C code, and the
capture loop runs after the mover's bitboard flip as in the C code). -/

/-- C lines 358-359 and 378: XOR the moving piece out of `from` and in at
`to`, in both hash and bitboard. -/
def mmMovePiece (K : ZKeys) (m : Move) (b : Board) : Board :=
  { b with
    hash := b.hash ^^^ K.piece b.side m.piece m.fromSq ^^^ K.piece b.side m.piece m.toSq,
    pieces := setPiece b.pieces b.side m.piece
      (b.pieces b.side m.piece ^^^ ((1 <<< m.fromSq) ||| (1 <<< m.toSq))) }

/-- C lines 361 and 375: remove the old ep from the hash and reset `ep`. -/
def mmClearEp (K : ZKeys) (b : Board) : Board :=
  { b with
    hash := if b.ep ≠ -1 then b.hash ^^^ K.ep b.ep.toNat else b.hash,
    ep := -1 }

/-- C lines 362-374: XOR the old castle rights out of the hash, clear rights
for king moves and for moves touching a1/h1/a8/h8, XOR the new rights in.
`&&& 12/3/13/14/7/11` are `&= ~3/~12/~2/~1/~8/~4` on a 4-bit mask. -/
def mmCastleRights (K : ZKeys) (m : Move) (b : Board) : Board :=
  let c0 := b.castle
  let c1 := if m.piece = KING then (if b.side = WHITE then c0 &&& 12 else c0 &&& 3) else c0
  let c2 := if m.fromSq = 0 ∨ m.toSq = 0 then c1 &&& 13 else c1
  let c3 := if m.fromSq = 7 ∨ m.toSq = 7 then c2 &&& 14 else c2
  let c4 := if m.fromSq = 56 ∨ m.toSq = 56 then c3 &&& 7 else c3
  let c5 := if m.fromSq = 63 ∨ m.toSq = 63 then c4 &&& 11 else c4
  { b with hash := b.hash ^^^ K.castle c0 ^^^ K.castle c5, castle := c5 }

/-- C lines 381-387: remove the first opponent piece kind standing on `to`
(`for p = PAWN..KING` with `break`). -/
def mmCaptureAux (K : ZKeys) (opponent toSq : Nat) (to_bb : Nat) (b : Board) :
    List Nat → Board
  | [] => b
  | p :: rest =>
    if b.pieces opponent p &&& to_bb ≠ 0 then
      { b with
        pieces := setPiece b.pieces opponent p (b.pieces opponent p ^^^ to_bb),
        hash := b.hash ^^^ K.piece opponent p toSq }
    else mmCaptureAux K opponent toSq to_bb b rest

def mmCapture (K : ZKeys) (m : Move) (b : Board) : Board :=
  mmCaptureAux K (1 - b.side) m.toSq (1 <<< m.toSq) b (List.range 6)

/-- C lines 391-395: en-passant capture — when a pawn lands on the old ep
square, remove the opponent pawn behind it. -/
def mmEpCap (K : ZKeys) (m : Move) (prev_ep : Int) (b : Board) : Board :=
  if (m.toSq : Int) = prev_ep then
    let captured_pawn_sq : Nat := if b.side = WHITE then m.toSq - 8 else m.toSq + 8
    { b with
      pieces := setPiece b.pieces (1 - b.side) PAWN
        (b.pieces (1 - b.side) PAWN ^^^ (1 <<< captured_pawn_sq)),
      hash := b.hash ^^^ K.piece (1 - b.side) PAWN captured_pawn_sq }
  else b

/-- C lines 396-399: double push — set `ep` to the passed-over square and
XOR its key in. -/
def mmDoublePush (K : ZKeys) (m : Move) (b : Board) : Board :=
  if (m.fromSq : Int) - (m.toSq : Int) = 16 ∨ (m.toSq : Int) - (m.fromSq : Int) = 16 then
    let newEp : Int := if b.side = WHITE then (m.fromSq : Int) + 8 else (m.fromSq : Int) - 8
    { b with ep := newEp, hash := b.hash ^^^ K.ep newEp.toNat }
  else b

/-- C lines 400-405: promotion — swap the pawn on `to` for the promoted
piece, in bitboards and hash. -/
def mmPromo (K : ZKeys) (m : Move) (b : Board) : Board :=
  if m.promo ≠ 0 then
    let ps1 := setPiece b.pieces b.side PAWN (b.pieces b.side PAWN ^^^ (1 <<< m.toSq))
    let ps2 := setPiece ps1 b.side m.promo (ps1 b.side m.promo ^^^ (1 <<< m.toSq))
    { b with
      pieces := ps2,
      hash := b.hash ^^^ K.piece b.side PAWN m.toSq ^^^ K.piece b.side m.promo m.toSq }
  else b

/-- C lines 390-405: the pawn-special block. -/
def mmPawnSpecial (K : ZKeys) (m : Move) (prev_ep : Int) (b : Board) : Board :=
  if m.piece = PAWN then mmPromo K m (mmDoublePush K m (mmEpCap K m prev_ep b))
  else b

/-- C lines 406-426: castling rook relocation (king move with
`|from − to| = 2`; targets g1, c1, g8, c8). -/
def mmCastleRook (K : ZKeys) (m : Move) (b : Board) : Board :=
  if m.piece = KING then
    if (m.fromSq : Int) - (m.toSq : Int) = 2 ∨ (m.toSq : Int) - (m.fromSq : Int) = 2 then
      if m.toSq = 6 then
        { b with
          pieces := setPiece b.pieces WHITE ROOK
            (b.pieces WHITE ROOK ^^^ ((1 <<< 7) ||| (1 <<< 5))),
          hash := b.hash ^^^ K.piece WHITE ROOK 7 ^^^ K.piece WHITE ROOK 5 }
      else if m.toSq = 2 then
        { b with
          pieces := setPiece b.pieces WHITE ROOK
            (b.pieces WHITE ROOK ^^^ ((1 <<< 0) ||| (1 <<< 3))),
          hash := b.hash ^^^ K.piece WHITE ROOK 0 ^^^ K.piece WHITE ROOK 3 }
      else if m.toSq = 62 then
        { b with
          pieces := setPiece b.pieces BLACK ROOK
            (b.pieces BLACK ROOK ^^^ ((1 <<< 63) ||| (1 <<< 61))),
          hash := b.hash ^^^ K.piece BLACK ROOK 63 ^^^ K.piece BLACK ROOK 61 }
      else if m.toSq = 58 then
        { b with
          pieces := setPiece b.pieces BLACK ROOK
            (b.pieces BLACK ROOK ^^^ ((1 <<< 56) ||| (1 <<< 59))),
          hash := b.hash ^^^ K.piece BLACK ROOK 56 ^^^ K.piece BLACK ROOK 59 }
      else b
    else b
  else b

/-- C lines 428-430: `update()`, flip the side, XOR the side key. -/
def mmFlip (K : ZKeys) (b : Board) : Board :=
  let b := b.update
  { b with side := 1 - b.side, hash := b.hash ^^^ K.side }

/-- `makeMove(b, m)`, C lines 350-431, as the composition of the stages. -/
def makeMove (K : ZKeys) (b : Board) (m : Move) : Board :=
  let prev_ep := b.ep
  mmFlip K (mmCastleRook K m (mmPawnSpecial K m prev_ep (mmCapture K m
    (mmCastleRights K m (mmClearEp K (mmMovePiece K m b))))))

/-- `isLegalMove(b, m)`: play the move on a copy; the pre-move side's king
must still exist and must not be attacked by the new side to move. -/
def isLegalMove (K : ZKeys) (b : Board) (m : Move) : Bool :=
  let copy := makeMove K b m
  if copy.pieces b.side KING = 0 then false
  else !(is_attacked (ctz (copy.pieces b.side KING)) copy.side copy)

/-! `generateMoves` (C lines 442-557). -/

/-- One iteration of the pawn-capture loop `for (int d : cap_dirs)`: the
diagonal capture (queen promotion on the last rank) or en-passant move in
direction `d`, with bounds and file-wrap guard. -/
def pawnCapDir (b : Board) (capturesOnly : Bool) (fromSq : Nat) (promo_rank d : Int) :
    List Move :=
  let toI : Int := (fromSq : Int) + d
  if toI < 0 ∨ 63 < toI then []
  else if (fromSq : Int) % 8 - toI % 8 > 1 ∨ (fromSq : Int) % 8 - toI % 8 < -1 then []
  else if b.occupied (1 - b.side) &&& (1 <<< toI.toNat) ≠ 0 then
    if toI / 8 = promo_rank then [mkMove fromSq toI.toNat PAWN 0 QUEEN]
    else [mkMove fromSq toI.toNat PAWN (-1) 0]
  else if capturesOnly = false ∧ toI = b.ep then [mkMove fromSq toI.toNat PAWN (-1) 0]
  else []

/-- The pawn block of `generateMoves` for one pawn on `fromSq`: single and
double pushes (queen promotion on the last rank), then the two capture
directions in loop order. -/
def pawnGen (b : Board) (capturesOnly : Bool) (fromSq : Nat) : List Move :=
  let dir : Int := if b.side = WHITE then 8 else -8
  let promo_rank : Int := if b.side = WHITE then 7 else 0
  let pushes : List Move :=
    if capturesOnly = false then
      let to_sq : Int := (fromSq : Int) + dir
      if 0 ≤ to_sq ∧ to_sq < 64 ∧ b.all &&& (1 <<< to_sq.toNat) = 0 then
        if to_sq / 8 = promo_rank then
          [mkMove fromSq to_sq.toNat PAWN (-1) QUEEN]
        else
          let single := [mkMove fromSq to_sq.toNat PAWN (-1) 0]
          let start_rank : Nat := if b.side = WHITE then 1 else 6
          if fromSq / 8 = start_rank then
            let to_sq2 : Int := (fromSq : Int) + 2 * dir
            if b.all &&& (1 <<< to_sq2.toNat) = 0 then
              single ++ [mkMove fromSq to_sq2.toNat PAWN (-1) 0]
            else single
          else single
      else []
    else []
  pushes ++ (pawnCapDir b capturesOnly fromSq promo_rank (dir - 1) ++
    pawnCapDir b capturesOnly fromSq promo_rank (dir + 1))

/-- The castling block of `generateMoves`: right bit set, squares between
king and rook empty, king not in check, crossed and landing squares not
attacked. -/
def castleGen (b : Board) : List Move :=
  if isInCheck b = false then
    if b.side = WHITE then
      (if b.castle &&& 1 ≠ 0 ∧ b.all &&& 0x60 = 0 ∧
          is_attacked 5 BLACK b = false ∧ is_attacked 6 BLACK b = false then
        [mkMove 4 6 KING (-1) 0] else []) ++
      (if b.castle &&& 2 ≠ 0 ∧ b.all &&& 0xE = 0 ∧
          is_attacked 3 BLACK b = false ∧ is_attacked 2 BLACK b = false then
        [mkMove 4 2 KING (-1) 0] else [])
    else
      (if b.castle &&& 4 ≠ 0 ∧ b.all &&& 0x6000000000000000 = 0 ∧
          is_attacked 61 WHITE b = false ∧ is_attacked 62 WHITE b = false then
        [mkMove 60 62 KING (-1) 0] else []) ++
      (if b.castle &&& 8 ≠ 0 ∧ b.all &&& 0xE00000000000000 = 0 ∧
          is_attacked 59 WHITE b = false ∧ is_attacked 58 WHITE b = false then
        [mkMove 60 58 KING (-1) 0] else [])
  else []

/-- One iteration of the piece/square loops of `generateMoves`:
the moves generated for the piece of kind `p` on `fromSq`.
`MASK64 ^^^ occupied` is the U64 complement `~occupied`. -/
def genFrom (b : Board) (capturesOnly : Bool) (p fromSq : Nat) : List Move :=
  if p = PAWN then pawnGen b capturesOnly fromSq
  else if p = KING ∧ capturesOnly = false then
    let attacks := KingMoves fromSq &&& (MASK64 ^^^ b.occupied b.side)
    castleGen b ++ (bitList attacks).map (fun t => mkMove fromSq t p (-1) 0)
  else
    let attacks :=
      if p = KNIGHT then KnightMoves fromSq
      else if p = BISHOP then get_bishop_attacks fromSq b.all
      else if p = ROOK then get_rook_attacks fromSq b.all
      else if p = QUEEN then get_rook_attacks fromSq b.all ||| get_bishop_attacks fromSq b.all
      else if p = KING then KingMoves fromSq
      else 0
    let attacks :=
      if capturesOnly then attacks &&& b.occupied (1 - b.side)
      else attacks &&& (MASK64 ^^^ b.occupied b.side)
    (bitList attacks).map (fun t => mkMove fromSq t p (-1) 0)

/-- The pseudo-legal move list, in the generation order of the C loops. -/
def pseudoMoves (b : Board) (capturesOnly : Bool) : List Move :=
  (List.range 6).flatMap (fun p =>
    (bitList (b.pieces b.side p)).flatMap (fun f => genFrom b capturesOnly p f))

/-- `generateMoves(b, capturesOnly)`: pseudo-legal generation followed by
the legality filter. -/
def generateMoves (K : ZKeys) (b : Board) (capturesOnly : Bool) : List Move :=
  (pseudoMoves b capturesOnly).filter (fun m => isLegalMove K b m)

/-! Search-support structures: history table, killer slots, move ordering,
transposition table, null-move flip, and the tail of the search move loop. -/

/-- `HistoryTable::update`: add `depth²` to `scores[side][from][to]`; if the
updated entry exceeds 100000, halve every entry (aging). -/
def historyUpdate (scores : Nat → Nat → Nat → Int) (side f t : Nat) (depth : Int) :
    Nat → Nat → Nat → Int :=
  let bumped := fun s2 f2 t2 =>
    if s2 = side ∧ f2 = f ∧ t2 = t then scores s2 f2 t2 + depth * depth else scores s2 f2 t2
  if bumped side f t > 100000 then fun s2 f2 t2 => bumped s2 f2 t2 / 2
  else bumped

/-- `KillerMoves` stores two `Move*` per ply.  Pointers are modelled as
addresses (`Nat`), `none` being the null pointer; `isKiller` and `update`
compare addresses, exactly like the C pointer comparisons `killers[ply][i]
== m` on `Move*`. -/
structure KillerState where
  killers : Nat → Option Nat × Option Nat

/-- `KillerMoves::isKiller(&m, ply)`: pointer equality against both slots. -/
def isKiller (ks : KillerState) (addr : Nat) (ply : Nat) : Bool :=
  (ks.killers ply).1 == some addr || (ks.killers ply).2 == some addr

/-- `KillerMoves::update(&m, ply)`: if the primary slot differs (as a
pointer), shift it to secondary and store the new pointer. -/
def killerUpdate (ks : KillerState) (addr : Nat) (ply : Nat) : KillerState :=
  if (ks.killers ply).1 ≠ some addr then
    { killers := fun p2 => if p2 = ply then (some addr, (ks.killers p2).1) else ks.killers p2 }
  else ks

/-- `victimValues[] = {100, 300, 300, 500, 900, 10000}` in `scoreMoves`. -/
def victimValue (p : Nat) : Int :=
  if p = 0 then 100 else if p = 1 then 300 else if p = 2 then 300
  else if p = 3 then 500 else if p = 4 then 900 else 10000

/-- The MVV-LVA loop of `scoreMoves`: `for p = KING down to PAWN`, on the
first opponent kind on `to`, score `100000 + 10·V(victim) − V(attacker)`;
if none matches the score is left unchanged. -/
def mvvLva (b : Board) (m : Move) : List Nat → Int
  | [] => m.score
  | p :: rest =>
    if b.pieces (1 - b.side) p &&& (1 <<< m.toSq) ≠ 0 then
      100000 + victimValue p * 10 - victimValue m.piece
    else mvvLva b m rest

/-- The body of the `scoreMoves` loop for the move `m` whose vector element
sits at address `addr`: TT move 1000000 (skipping the promotion bonus, as
`continue` does); captures by MVV-LVA; killers 90000; otherwise history;
`+80000` for a queen promotion. -/
def scoreOne (b : Board) (ttMove : Option Move) (hist : Nat → Nat → Nat → Int)
    (ks : KillerState) (ply : Nat) (addr : Nat) (m : Move) : Move :=
  let ttHit : Bool := match ttMove with | some tm => moveEq m tm | none => false
  if ttHit then { m with score := 1000000 }
  else
    let base : Int :=
      if b.occupied (1 - b.side) &&& (1 <<< m.toSq) ≠ 0 then
        mvvLva b m [KING, QUEEN, ROOK, BISHOP, KNIGHT, PAWN]
      else if isKiller ks addr ply then 90000
      else hist b.side m.fromSq m.toSq
    let base := if m.promo = QUEEN then base + 80000 else base
    { m with score := base }

/-- `scoreMoves(moves, b, ttMove, ply)`: score each move (the vector element
addresses are `base + i`) and sort by descending score (`std::sort` with
`a.score > b.score`; ties in unspecified order, modelled by merge sort). -/
def scoreMoves (b : Board) (ttMove : Option Move) (hist : Nat → Nat → Nat → Int)
    (ks : KillerState) (ply : Nat) (base : Nat) (moves : List Move) : List Move :=
  (moves.enum.map (fun im => scoreOne b ttMove hist ks ply (base + im.1) im.2)).mergeSort
    (fun x y => x.score ≥ y.score)

/-- `struct TTEntry`. -/
structure TTEntry where
  hash : Nat
  depth : Int
  score : Int
  flag : Nat
  bestMove : Nat

abbrev TT_EXACT : Nat := 0
abbrev TT_ALPHA : Nat := 1
abbrev TT_BETA : Nat := 2

/-- The transposition-table probe of `search` (C lines 639-650): a hit
requires equal hashes; with `entry.depth ≥ depth`, EXACT returns the stored
score, ALPHA returns `alpha` when the stored score ≤ alpha, BETA returns
`beta` when the stored score ≥ beta; otherwise the search continues
(`none`). -/
def ttProbe (e : TTEntry) (hash : Nat) (depth alpha beta : Int) : Option Int :=
  if e.hash = hash ∧ e.depth ≥ depth then
    if e.flag = TT_EXACT then some e.score
    else if e.flag = TT_ALPHA ∧ e.score ≤ alpha then some alpha
    else if e.flag = TT_BETA ∧ e.score ≥ beta then some beta
    else none
  else none

/-- The side-only flip made by null-move pruning (C lines 664-667):
`copy.side = 1 - copy.side; copy.hash ^= zobristSide; copy.ep = -1;`.
The old en-passant key is not touched. -/
def nullFlip (K : ZKeys) (b : Board) : Board :=
  { b with side := 1 - b.side, hash := b.hash ^^^ K.side, ep := -1 }

/-- The state threaded through the move loop of `search`. -/
structure LoopState where
  bestScore : Int
  alpha : Int
  localBest : Move
  bestMove : Move
  hist : Nat → Nat → Nat → Int
  ks : KillerState
  breakLoop : Bool

/-- C lines 741-774: the tail of one iteration of the move loop of `search`
after the recursive call returned `score` — best tracking, alpha raise (with
history update when the move is quiet, i.e. no opponent piece on `to`),
beta cutoff (killer update for quiet moves, then `break`), futility break. -/
def searchMoveStep (b : Board) (m : Move) (addr : Nat) (score : Int)
    (depth beta : Int) (inCheck : Bool) (moveCount : Int) (ply : Nat)
    (st : LoopState) : LoopState :=
  let st :=
    if score > st.bestScore then
      { st with bestScore := score, localBest := m,
                bestMove := if ply = 0 then m else st.bestMove }
    else st
  let st :=
    if score > st.alpha then
      let hist2 :=
        if b.occupied (1 - b.side) &&& (1 <<< m.toSq) = 0 then
          historyUpdate st.hist b.side m.fromSq m.toSq depth
        else st.hist
      { st with alpha := score, hist := hist2 }
    else st
  if st.alpha ≥ beta then
    let ks2 :=
      if b.occupied (1 - b.side) &&& (1 <<< m.toSq) = 0 then
        killerUpdate st.ks addr ply
      else st.ks
    { st with ks := ks2, breakLoop := true }
  else if depth ≤ 2 ∧ inCheck = false ∧ moveCount > 8 ∧
      b.occupied (1 - b.side) &&& (1 <<< m.toSq) = 0 ∧
      b.evaluate + depth * 100 < st.alpha then
    { st with breakLoop := true }
  else st

/-! Hash-coherence infrastructure. -/

/-- Bitboard well-formedness: every slot of `pieces[2][6]` fits in 64 bits. -/
def pieces64 (b : Board) : Prop := ∀ c p, b.pieces c p < 2 ^ 64

/-- Well-formedness maintained by the engine along reachable positions:
a valid side to move, 64-bit piece boards, and an `ep` square that is unset
or the square passed over by a double pawn push. -/
def WF (b : Board) : Prop :=
  (b.side = 0 ∨ b.side = 1) ∧ pieces64 b ∧
  (b.ep = -1 ∨ (16 ≤ b.ep ∧ b.ep ≤ 23) ∨ (40 ≤ b.ep ∧ b.ep ≤ 47))

/-- The twelve (colour, kind) slots in the C loop order. -/
def allCP : List (Nat × Nat) :=
  [(0, 0), (0, 1), (0, 2), (0, 3), (0, 4), (0, 5),
   (1, 0), (1, 1), (1, 2), (1, 3), (1, 4), (1, 5)]

/-- Canonical piece part of the Zobrist hash. -/
def pieceXor (K : ZKeys) (f : Nat → Nat → Nat) : Nat :=
  (allCP.map (fun cp => hashBits (K.piece cp.1 cp.2) (f cp.1 cp.2) 64)).foldr
    (fun x y => x ^^^ y) 0

theorem if_xor (c : Prop) [Decidable c] (h k : Nat) :
    (if c then h ^^^ k else h) = h ^^^ (if c then k else 0) := by
  by_cases hc : c <;> simp [hc]

theorem slotFold (K : ZKeys) (c p : Nat) (a bb : Nat) (h : bb < 2 ^ 64) :
    (bitList bb).foldl (fun h sq => h ^^^ K.piece c p sq) a
      = a ^^^ hashBits (K.piece c p) bb 64 := by
  rw [foldl_xor_acc, bitList_foldl_xor _ _ h]

theorem zobristHash_eq_canon (K : ZKeys) (b : Board) (h64 : pieces64 b) :
    zobristHash K b =
      pieceXor K b.pieces ^^^ K.castle b.castle ^^^
      (if b.ep ≠ -1 then K.ep b.ep.toNat else 0) ^^^
      (if b.side = 1 then K.side else 0) := by
  have hrange2 : List.range 2 = [0, 1] := rfl
  have hrange6 : List.range 6 = [0, 1, 2, 3, 4, 5] := rfl
  simp only [zobristHash, hrange2, hrange6, List.foldl_cons, List.foldl_nil]
  rw [slotFold K 0 0 _ _ (h64 0 0), slotFold K 0 1 _ _ (h64 0 1),
      slotFold K 0 2 _ _ (h64 0 2), slotFold K 0 3 _ _ (h64 0 3),
      slotFold K 0 4 _ _ (h64 0 4), slotFold K 0 5 _ _ (h64 0 5),
      slotFold K 1 0 _ _ (h64 1 0), slotFold K 1 1 _ _ (h64 1 1),
      slotFold K 1 2 _ _ (h64 1 2), slotFold K 1 3 _ _ (h64 1 3),
      slotFold K 1 4 _ _ (h64 1 4), slotFold K 1 5 _ _ (h64 1 5)]
  rw [if_xor, if_xor]
  simp only [pieceXor, allCP, List.map_cons, List.map_nil, List.foldr_cons, List.foldr_nil]
  simp [Nat.xor_assoc, Nat.xor_comm, xor_left_comm, xor_cancel_left, BLACK]

theorem or_single_eq_xor (a b : Nat) (hab : a ≠ b) :
    (1 <<< a) ||| (1 <<< b) = (1 <<< a) ^^^ (1 <<< b) := by
  apply Nat.eq_of_testBit_eq
  intro i
  have ha : (1 <<< a : Nat) = 2 ^ a := by simp [Nat.shiftLeft_eq]
  have hb : (1 <<< b : Nat) = 2 ^ b := by simp [Nat.shiftLeft_eq]
  rw [Nat.testBit_or, Nat.testBit_xor, ha, hb, Nat.testBit_two_pow, Nat.testBit_two_pow]
  by_cases h1 : a = i
  · have h2 : b ≠ i := by omega
    simp [h1, decide_eq_false h2]
  · simp [decide_eq_false h1]

theorem hashBits_single (key : Nat → Nat) (a : Nat) (ha : a < 64) :
    hashBits key (1 <<< a) 64 = key a := by
  rw [hashBits_two_pow]
  simp [ha]

theorem hashBits_double (key : Nat → Nat) (a b : Nat) (ha : a < 64) (hb : b < 64)
    (hab : a ≠ b) :
    hashBits key ((1 <<< a) ||| (1 <<< b)) 64 = key a ^^^ key b := by
  rw [or_single_eq_xor a b hab, hashBits_xor, hashBits_single key a ha,
      hashBits_single key b hb]

theorem single_lt (a : Nat) (ha : a < 64) : (1 <<< a : Nat) < 2 ^ 64 := by
  have h : (1 <<< a : Nat) = 2 ^ a := by simp [Nat.shiftLeft_eq]
  rw [h]
  exact Nat.pow_lt_pow_right (by decide) ha

theorem double_lt (a b : Nat) (ha : a < 64) (hb : b < 64) :
    ((1 <<< a) ||| (1 <<< b) : Nat) < 2 ^ 64 :=
  Nat.or_lt_two_pow (single_lt a ha) (single_lt b hb)

theorem foldr_xor_congr {α : Type} (g g2 : α → Nat) :
    ∀ l : List α, (∀ x ∈ l, g2 x = g x) →
      (l.map g2).foldr (fun x y => x ^^^ y) 0 = (l.map g).foldr (fun x y => x ^^^ y) 0 := by
  intro l
  induction l with
  | nil => intro _; rfl
  | cons x xs ih =>
    intro h
    simp only [List.map_cons, List.foldr_cons]
    rw [h x (List.mem_cons_self x xs), ih (fun y hy => h y (List.mem_cons_of_mem x hy))]

theorem foldr_xor_update {α : Type} (g g2 : α → Nat) (a : α) (d : Nat)
    (ha : g2 a = g a ^^^ d) (hother : ∀ x, x ≠ a → g2 x = g x) :
    ∀ l : List α, l.Nodup → a ∈ l →
      (l.map g2).foldr (fun x y => x ^^^ y) 0
        = (l.map g).foldr (fun x y => x ^^^ y) 0 ^^^ d := by
  intro l
  induction l with
  | nil => intro _ hmem; simp at hmem
  | cons x xs ih =>
    intro hnd hmem
    rw [List.nodup_cons] at hnd
    simp only [List.map_cons, List.foldr_cons]
    by_cases hxa : x = a
    · subst hxa
      have hxs : ∀ y ∈ xs, g2 y = g y := fun y hy =>
        hother y (fun hya => hnd.1 (hya ▸ hy))
      rw [ha, foldr_xor_congr g g2 xs hxs]
      simp [Nat.xor_assoc, Nat.xor_comm, xor_left_comm]
    · have hmem2 : a ∈ xs := by
        rcases List.mem_cons.mp hmem with h | h
        · exact absurd h.symm hxa
        · exact h
      rw [hother x hxa, ih hnd.2 hmem2, ← Nat.xor_assoc]

theorem pieceXor_setPiece (K : ZKeys) (f : Nat → Nat → Nat) (c p : Nat)
    (hc : c < 2) (hp : p < 6) (mask : Nat) :
    pieceXor K (setPiece f c p (f c p ^^^ mask)) =
      pieceXor K f ^^^ hashBits (K.piece c p) mask 64 := by
  have hmem : (c, p) ∈ allCP := by
    interval_cases c <;> interval_cases p <;> decide
  have hnd : allCP.Nodup := by decide
  apply foldr_xor_update
    (fun cp => hashBits (K.piece cp.1 cp.2) (f cp.1 cp.2) 64)
    (fun cp => hashBits (K.piece cp.1 cp.2) (setPiece f c p (f c p ^^^ mask) cp.1 cp.2) 64)
    (c, p) (hashBits (K.piece c p) mask 64) ?_ ?_ allCP hnd hmem
  · simp only [setPiece, and_self, if_true]
    exact hashBits_xor (K.piece c p) (f c p) mask 64
  · intro x hx
    have hne : ¬ (x.1 = c ∧ x.2 = p) := by
      intro ⟨h1, h2⟩
      exact hx (Prod.ext h1 h2)
    simp [setPiece, hne]

/-! Field-projection lemmas for the `makeMove` stages. -/

theorem mmMovePiece_pieces (K : ZKeys) (m : Move) (b : Board) :
    (mmMovePiece K m b).pieces
      = setPiece b.pieces b.side m.piece
          (b.pieces b.side m.piece ^^^ ((1 <<< m.fromSq) ||| (1 <<< m.toSq))) := rfl

theorem mmMovePiece_hash (K : ZKeys) (m : Move) (b : Board) :
    (mmMovePiece K m b).hash
      = b.hash ^^^ K.piece b.side m.piece m.fromSq ^^^ K.piece b.side m.piece m.toSq := rfl

theorem mmMovePiece_castle (K : ZKeys) (m : Move) (b : Board) :
    (mmMovePiece K m b).castle = b.castle := rfl

theorem mmMovePiece_ep (K : ZKeys) (m : Move) (b : Board) :
    (mmMovePiece K m b).ep = b.ep := rfl

theorem mmMovePiece_side (K : ZKeys) (m : Move) (b : Board) :
    (mmMovePiece K m b).side = b.side := rfl

theorem mmClearEp_hash (K : ZKeys) (b : Board) :
    (mmClearEp K b).hash = if b.ep ≠ -1 then b.hash ^^^ K.ep b.ep.toNat else b.hash := rfl

theorem mmClearEp_ep (K : ZKeys) (b : Board) : (mmClearEp K b).ep = -1 := rfl

theorem mmClearEp_pieces (K : ZKeys) (b : Board) : (mmClearEp K b).pieces = b.pieces := rfl

theorem mmClearEp_castle (K : ZKeys) (b : Board) : (mmClearEp K b).castle = b.castle := rfl

theorem mmClearEp_side (K : ZKeys) (b : Board) : (mmClearEp K b).side = b.side := rfl

/-- The castle mask computed by `mmCastleRights`. -/
def newCastle (m : Move) (side castle : Nat) : Nat :=
  let c1 := if m.piece = KING then (if side = WHITE then castle &&& 12 else castle &&& 3) else castle
  let c2 := if m.fromSq = 0 ∨ m.toSq = 0 then c1 &&& 13 else c1
  let c3 := if m.fromSq = 7 ∨ m.toSq = 7 then c2 &&& 14 else c2
  let c4 := if m.fromSq = 56 ∨ m.toSq = 56 then c3 &&& 7 else c3
  if m.fromSq = 63 ∨ m.toSq = 63 then c4 &&& 11 else c4

theorem mmCastleRights_hash (K : ZKeys) (m : Move) (b : Board) :
    (mmCastleRights K m b).hash
      = b.hash ^^^ K.castle b.castle ^^^ K.castle (newCastle m b.side b.castle) := rfl

theorem mmCastleRights_castle (K : ZKeys) (m : Move) (b : Board) :
    (mmCastleRights K m b).castle = newCastle m b.side b.castle := rfl

theorem mmCastleRights_pieces (K : ZKeys) (m : Move) (b : Board) :
    (mmCastleRights K m b).pieces = b.pieces := rfl

theorem mmCastleRights_ep (K : ZKeys) (m : Move) (b : Board) :
    (mmCastleRights K m b).ep = b.ep := rfl

theorem mmCastleRights_side (K : ZKeys) (m : Move) (b : Board) :
    (mmCastleRights K m b).side = b.side := rfl

/-! Coherence ("hash equals from-scratch Zobrist") for each stage. -/

theorem pieces64_setPiece (f : Nat → Nat → Nat) (c p v : Nat)
    (h64 : ∀ c2 p2, f c2 p2 < 2 ^ 64) (hv : v < 2 ^ 64) :
    ∀ c2 p2, setPiece f c p v c2 p2 < 2 ^ 64 := by
  intro c2 p2
  simp only [setPiece]
  by_cases h : c2 = c ∧ p2 = p
  · simpa [h] using hv
  · simpa [h] using h64 c2 p2

theorem pieces64_mmMovePiece (K : ZKeys) (m : Move) (b : Board) (h64 : pieces64 b)
    (hf : m.fromSq < 64) (ht : m.toSq < 64) : pieces64 (mmMovePiece K m b) := by
  intro c p
  rw [mmMovePiece_pieces]
  exact pieces64_setPiece b.pieces b.side m.piece _ h64
    (Nat.xor_lt_two_pow (h64 b.side m.piece) (double_lt _ _ hf ht)) c p

theorem coh_mmMovePiece (K : ZKeys) (m : Move) (b : Board) (h64 : pieces64 b)
    (hside : b.side < 2) (hp : m.piece < 6) (hf : m.fromSq < 64) (ht : m.toSq < 64)
    (hft : m.fromSq ≠ m.toSq) (hcoh : b.hash = zobristHash K b) :
    (mmMovePiece K m b).hash = zobristHash K (mmMovePiece K m b) := by
  have h64b : pieces64 (mmMovePiece K m b) := pieces64_mmMovePiece K m b h64 hf ht
  rw [zobristHash_eq_canon K _ h64b, mmMovePiece_hash, mmMovePiece_pieces,
      mmMovePiece_castle, mmMovePiece_ep, mmMovePiece_side,
      pieceXor_setPiece K b.pieces b.side m.piece hside hp _,
      hashBits_double _ _ _ hf ht hft,
      hcoh, zobristHash_eq_canon K b h64]
  simp [Nat.xor_assoc, Nat.xor_comm, xor_left_comm]

theorem coh_mmClearEp (K : ZKeys) (b : Board) (h64 : pieces64 b)
    (hcoh : b.hash = zobristHash K b) :
    (mmClearEp K b).hash = zobristHash K (mmClearEp K b) := by
  have h64b : pieces64 (mmClearEp K b) := by
    intro c p
    rw [mmClearEp_pieces]
    exact h64 c p
  rw [zobristHash_eq_canon K _ h64b, mmClearEp_hash, mmClearEp_pieces,
      mmClearEp_castle, mmClearEp_ep, mmClearEp_side,
      hcoh, zobristHash_eq_canon K b h64]
  by_cases hep : b.ep = -1
  · simp [hep]
  · simp [hep, Nat.xor_assoc, Nat.xor_comm, xor_left_comm, xor_cancel_left]

theorem coh_mmCastleRights (K : ZKeys) (m : Move) (b : Board) (h64 : pieces64 b)
    (hcoh : b.hash = zobristHash K b) :
    (mmCastleRights K m b).hash = zobristHash K (mmCastleRights K m b) := by
  have h64b : pieces64 (mmCastleRights K m b) := by
    intro c p
    rw [mmCastleRights_pieces]
    exact h64 c p
  rw [zobristHash_eq_canon K _ h64b, mmCastleRights_hash, mmCastleRights_pieces,
      mmCastleRights_castle, mmCastleRights_ep, mmCastleRights_side,
      hcoh, zobristHash_eq_canon K b h64]
  simp [Nat.xor_assoc, Nat.xor_comm, xor_left_comm, xor_cancel_left]

/-- Generic coherence step: toggling one board bit of slot `(c, p)` while
XOR-ing the matching piece-square key preserves hash coherence. -/
theorem coh_singleUpdate (K : ZKeys) (b : Board) (c p a : Nat)
    (h64 : pieces64 b) (hc : c < 2) (hp : p < 6) (ha : a < 64)
    (hcoh : b.hash = zobristHash K b) :
    ({ b with pieces := setPiece b.pieces c p (b.pieces c p ^^^ (1 <<< a)),
              hash := b.hash ^^^ K.piece c p a } : Board).hash
      = zobristHash K
          { b with pieces := setPiece b.pieces c p (b.pieces c p ^^^ (1 <<< a)),
                   hash := b.hash ^^^ K.piece c p a } := by
  have h64b : pieces64 ({ b with
      pieces := setPiece b.pieces c p (b.pieces c p ^^^ (1 <<< a)),
      hash := b.hash ^^^ K.piece c p a } : Board) := fun c2 p2 =>
    pieces64_setPiece b.pieces c p _ h64
      (Nat.xor_lt_two_pow (h64 c p) (single_lt a ha)) c2 p2
  rw [zobristHash_eq_canon K _ h64b]
  show b.hash ^^^ K.piece c p a
      = pieceXor K (setPiece b.pieces c p (b.pieces c p ^^^ (1 <<< a))) ^^^
        K.castle b.castle ^^^
        (if b.ep ≠ -1 then K.ep b.ep.toNat else 0) ^^^
        (if b.side = 1 then K.side else 0)
  rw [pieceXor_setPiece K b.pieces c p hc hp _, hashBits_single _ _ ha, hcoh,
      zobristHash_eq_canon K b h64]
  simp [Nat.xor_assoc, Nat.xor_comm, xor_left_comm]

/-- Generic coherence step: toggling two board bits of slot `(c, p)` while
XOR-ing the two matching keys preserves hash coherence. -/
theorem coh_pairedUpdate (K : ZKeys) (b : Board) (c p a1 a2 : Nat)
    (h64 : pieces64 b) (hc : c < 2) (hp : p < 6) (ha1 : a1 < 64) (ha2 : a2 < 64)
    (h12 : a1 ≠ a2) (hcoh : b.hash = zobristHash K b) :
    ({ b with pieces := setPiece b.pieces c p
                (b.pieces c p ^^^ ((1 <<< a1) ||| (1 <<< a2))),
              hash := b.hash ^^^ K.piece c p a1 ^^^ K.piece c p a2 } : Board).hash
      = zobristHash K
          { b with pieces := setPiece b.pieces c p
                    (b.pieces c p ^^^ ((1 <<< a1) ||| (1 <<< a2))),
                   hash := b.hash ^^^ K.piece c p a1 ^^^ K.piece c p a2 } := by
  have h64b : pieces64 ({ b with
      pieces := setPiece b.pieces c p (b.pieces c p ^^^ ((1 <<< a1) ||| (1 <<< a2))),
      hash := b.hash ^^^ K.piece c p a1 ^^^ K.piece c p a2 } : Board) := fun c2 p2 =>
    pieces64_setPiece b.pieces c p _ h64
      (Nat.xor_lt_two_pow (h64 c p) (double_lt a1 a2 ha1 ha2)) c2 p2
  rw [zobristHash_eq_canon K _ h64b]
  show b.hash ^^^ K.piece c p a1 ^^^ K.piece c p a2
      = pieceXor K (setPiece b.pieces c p
          (b.pieces c p ^^^ ((1 <<< a1) ||| (1 <<< a2)))) ^^^
        K.castle b.castle ^^^
        (if b.ep ≠ -1 then K.ep b.ep.toNat else 0) ^^^
        (if b.side = 1 then K.side else 0)
  rw [pieceXor_setPiece K b.pieces c p hc hp _, hashBits_double _ _ _ ha1 ha2 h12, hcoh,
      zobristHash_eq_canon K b h64]
  simp [Nat.xor_assoc, Nat.xor_comm, xor_left_comm]

/-! Capture-loop lemmas. -/

theorem mmCaptureAux_ep (K : ZKeys) (opp toSq to_bb : Nat) (b : Board) :
    ∀ l, (mmCaptureAux K opp toSq to_bb b l).ep = b.ep := by
  intro l
  induction l with
  | nil => rfl
  | cons p rest ih =>
    simp only [mmCaptureAux]
    by_cases h : b.pieces opp p &&& to_bb ≠ 0
    · simp [h]
    · simp [h, ih]

theorem mmCaptureAux_castle (K : ZKeys) (opp toSq to_bb : Nat) (b : Board) :
    ∀ l, (mmCaptureAux K opp toSq to_bb b l).castle = b.castle := by
  intro l
  induction l with
  | nil => rfl
  | cons p rest ih =>
    simp only [mmCaptureAux]
    by_cases h : b.pieces opp p &&& to_bb ≠ 0
    · simp [h]
    · simp [h, ih]

theorem mmCaptureAux_side (K : ZKeys) (opp toSq to_bb : Nat) (b : Board) :
    ∀ l, (mmCaptureAux K opp toSq to_bb b l).side = b.side := by
  intro l
  induction l with
  | nil => rfl
  | cons p rest ih =>
    simp only [mmCaptureAux]
    by_cases h : b.pieces opp p &&& to_bb ≠ 0
    · simp [h]
    · simp [h, ih]

theorem pieces64_mmCaptureAux (K : ZKeys) (opp toSq to_bb : Nat) (b : Board)
    (h64 : pieces64 b) (hbb : to_bb < 2 ^ 64) :
    ∀ l, pieces64 (mmCaptureAux K opp toSq to_bb b l) := by
  intro l
  induction l with
  | nil => exact h64
  | cons p rest ih =>
    show pieces64 (if b.pieces opp p &&& to_bb ≠ 0 then
        { b with pieces := setPiece b.pieces opp p (b.pieces opp p ^^^ to_bb),
                 hash := b.hash ^^^ K.piece opp p toSq }
      else mmCaptureAux K opp toSq to_bb b rest)
    by_cases h : b.pieces opp p &&& to_bb ≠ 0
    · rw [if_pos h]
      exact fun c2 p2 => pieces64_setPiece b.pieces opp p _ h64
        (Nat.xor_lt_two_pow (h64 opp p) hbb) c2 p2
    · rw [if_neg h]
      exact ih

theorem coh_mmCaptureAux (K : ZKeys) (opp toSq : Nat) (b : Board)
    (h64 : pieces64 b) (hopp : opp < 2) (ht : toSq < 64)
    (hcoh : b.hash = zobristHash K b) :
    ∀ l, (∀ p ∈ l, p < 6) →
      (mmCaptureAux K opp toSq (1 <<< toSq) b l).hash
        = zobristHash K (mmCaptureAux K opp toSq (1 <<< toSq) b l) := by
  intro l
  induction l with
  | nil => exact fun _ => hcoh
  | cons p rest ih =>
    intro hl
    show (if b.pieces opp p &&& (1 <<< toSq) ≠ 0 then
        { b with pieces := setPiece b.pieces opp p (b.pieces opp p ^^^ (1 <<< toSq)),
                 hash := b.hash ^^^ K.piece opp p toSq }
      else mmCaptureAux K opp toSq (1 <<< toSq) b rest).hash
      = zobristHash K (if b.pieces opp p &&& (1 <<< toSq) ≠ 0 then
        { b with pieces := setPiece b.pieces opp p (b.pieces opp p ^^^ (1 <<< toSq)),
                 hash := b.hash ^^^ K.piece opp p toSq }
      else mmCaptureAux K opp toSq (1 <<< toSq) b rest)
    by_cases h : b.pieces opp p &&& (1 <<< toSq) ≠ 0
    · rw [if_pos h]
      exact coh_singleUpdate K b opp p toSq h64 hopp
        (hl p (List.mem_cons_self p rest)) ht hcoh
    · rw [if_neg h]
      exact ih (fun q hq => hl q (List.mem_cons_of_mem p hq))

theorem coh_mmCapture (K : ZKeys) (m : Move) (b : Board)
    (h64 : pieces64 b) (ht : m.toSq < 64) (hcoh : b.hash = zobristHash K b) :
    (mmCapture K m b).hash = zobristHash K (mmCapture K m b) := by
  have hopp : 1 - b.side < 2 := by omega
  have hmem : ∀ p ∈ List.range 6, p < 6 := fun p hp => List.mem_range.mp hp
  exact coh_mmCaptureAux K (1 - b.side) m.toSq b h64 hopp ht hcoh (List.range 6) hmem

theorem pieces64_mmCapture (K : ZKeys) (m : Move) (b : Board)
    (h64 : pieces64 b) (ht : m.toSq < 64) : pieces64 (mmCapture K m b) :=
  pieces64_mmCaptureAux K (1 - b.side) m.toSq (1 <<< m.toSq) b h64
    (single_lt m.toSq ht) (List.range 6)

/-! Pawn-special, castling-rook and flip stages. -/

theorem mmEpCap_ep (K : ZKeys) (m : Move) (prev_ep : Int) (b : Board) :
    (mmEpCap K m prev_ep b).ep = b.ep := by
  unfold mmEpCap
  split <;> rfl

theorem mmEpCap_castle (K : ZKeys) (m : Move) (prev_ep : Int) (b : Board) :
    (mmEpCap K m prev_ep b).castle = b.castle := by
  unfold mmEpCap
  split <;> rfl

theorem mmEpCap_side (K : ZKeys) (m : Move) (prev_ep : Int) (b : Board) :
    (mmEpCap K m prev_ep b).side = b.side := by
  unfold mmEpCap
  split <;> rfl

theorem pieces64_mmEpCap (K : ZKeys) (m : Move) (prev_ep : Int) (b : Board)
    (h64 : pieces64 b)
    (hep : prev_ep = -1 ∨ (16 ≤ prev_ep ∧ prev_ep ≤ 23) ∨ (40 ≤ prev_ep ∧ prev_ep ≤ 47)) :
    pieces64 (mmEpCap K m prev_ep b) := by
  unfold mmEpCap
  by_cases hc : (m.toSq : Int) = prev_ep
  · rw [if_pos hc]
    have hge : (0 : Int) ≤ (m.toSq : Int) := Int.ofNat_nonneg m.toSq
    have htr : 16 ≤ m.toSq ∧ m.toSq ≤ 47 := by omega
    have hsq : (if b.side = WHITE then m.toSq - 8 else m.toSq + 8) < 64 := by
      split <;> omega
    exact fun c2 p2 => pieces64_setPiece b.pieces (1 - b.side) PAWN _ h64
      (Nat.xor_lt_two_pow (h64 (1 - b.side) PAWN) (single_lt _ hsq)) c2 p2
  · rw [if_neg hc]
    exact h64

theorem coh_mmEpCap (K : ZKeys) (m : Move) (prev_ep : Int) (b : Board)
    (h64 : pieces64 b) (hside : b.side < 2)
    (hep : prev_ep = -1 ∨ (16 ≤ prev_ep ∧ prev_ep ≤ 23) ∨ (40 ≤ prev_ep ∧ prev_ep ≤ 47))
    (hcoh : b.hash = zobristHash K b) :
    (mmEpCap K m prev_ep b).hash = zobristHash K (mmEpCap K m prev_ep b) := by
  unfold mmEpCap
  by_cases hc : (m.toSq : Int) = prev_ep
  · rw [if_pos hc]
    have hopp : 1 - b.side < 2 := by omega
    have htr : 16 ≤ m.toSq ∧ m.toSq ≤ 47 := by
      have hge : (0 : Int) ≤ (m.toSq : Int) := Int.ofNat_nonneg m.toSq
      omega
    have hsq : (if b.side = WHITE then m.toSq - 8 else m.toSq + 8) < 64 := by
      split <;> omega
    exact coh_singleUpdate K b (1 - b.side) PAWN _ h64 hopp (by decide) hsq hcoh
  · rw [if_neg hc]
    exact hcoh

theorem mmDoublePush_pieces (K : ZKeys) (m : Move) (b : Board) :
    (mmDoublePush K m b).pieces = b.pieces := by
  unfold mmDoublePush
  split <;> rfl

theorem mmDoublePush_castle (K : ZKeys) (m : Move) (b : Board) :
    (mmDoublePush K m b).castle = b.castle := by
  unfold mmDoublePush
  split <;> rfl

theorem mmDoublePush_side (K : ZKeys) (m : Move) (b : Board) :
    (mmDoublePush K m b).side = b.side := by
  unfold mmDoublePush
  split <;> rfl

theorem mmDoublePush_ep (K : ZKeys) (m : Move) (b : Board) :
    (mmDoublePush K m b).ep =
      if (m.fromSq : Int) - m.toSq = 16 ∨ (m.toSq : Int) - m.fromSq = 16 then
        (if b.side = WHITE then (m.fromSq : Int) + 8 else (m.fromSq : Int) - 8)
      else b.ep := by
  unfold mmDoublePush
  by_cases hc : (m.fromSq : Int) - m.toSq = 16 ∨ (m.toSq : Int) - m.fromSq = 16
  · rw [if_pos hc, if_pos hc]
  · rw [if_neg hc, if_neg hc]

theorem pieces64_mmDoublePush (K : ZKeys) (m : Move) (b : Board)
    (h64 : pieces64 b) : pieces64 (mmDoublePush K m b) := by
  intro c p
  rw [mmDoublePush_pieces]
  exact h64 c p

theorem coh_mmDoublePush (K : ZKeys) (m : Move) (b : Board)
    (h64 : pieces64 b) (hbep : b.ep = -1)
    (hchar : ((m.fromSq : Int) - m.toSq = 16 ∨ (m.toSq : Int) - m.fromSq = 16) →
      (b.side = 0 ∧ m.fromSq / 8 = 1 ∧ m.toSq = m.fromSq + 16) ∨
      (b.side = 1 ∧ m.fromSq / 8 = 6 ∧ m.fromSq = m.toSq + 16))
    (hcoh : b.hash = zobristHash K b) :
    (mmDoublePush K m b).hash = zobristHash K (mmDoublePush K m b) := by
  unfold mmDoublePush
  by_cases hc : (m.fromSq : Int) - m.toSq = 16 ∨ (m.toSq : Int) - m.fromSq = 16
  · rw [if_pos hc]
    have hne : (if b.side = WHITE then (m.fromSq : Int) + 8 else (m.fromSq : Int) - 8) ≠ -1 := by
      rcases hchar hc with ⟨hs, hr, _⟩ | ⟨hs, hr, _⟩ <;> simp [hs] <;> omega
    have h64b : pieces64 ({ b with
        ep := if b.side = WHITE then (m.fromSq : Int) + 8 else (m.fromSq : Int) - 8,
        hash := b.hash ^^^
          K.ep (if b.side = WHITE then (m.fromSq : Int) + 8 else (m.fromSq : Int) - 8).toNat }
        : Board) := h64
    rw [zobristHash_eq_canon K _ h64b]
    show b.hash ^^^
        K.ep (if b.side = WHITE then (m.fromSq : Int) + 8 else (m.fromSq : Int) - 8).toNat
      = pieceXor K b.pieces ^^^ K.castle b.castle ^^^
        (if (if b.side = WHITE then (m.fromSq : Int) + 8 else (m.fromSq : Int) - 8) ≠ -1 then
          K.ep (if b.side = WHITE then (m.fromSq : Int) + 8 else (m.fromSq : Int) - 8).toNat
        else 0) ^^^
        (if b.side = 1 then K.side else 0)
    rw [if_pos hne, hcoh, zobristHash_eq_canon K b h64]
    simp [hbep, Nat.xor_assoc, Nat.xor_comm, xor_left_comm]
  · rw [if_neg hc]
    exact hcoh

theorem mmPromo_ep (K : ZKeys) (m : Move) (b : Board) : (mmPromo K m b).ep = b.ep := by
  unfold mmPromo
  split <;> rfl

theorem mmPromo_castle (K : ZKeys) (m : Move) (b : Board) :
    (mmPromo K m b).castle = b.castle := by
  unfold mmPromo
  split <;> rfl

theorem mmPromo_side (K : ZKeys) (m : Move) (b : Board) :
    (mmPromo K m b).side = b.side := by
  unfold mmPromo
  split <;> rfl

theorem pieces64_mmPromo (K : ZKeys) (m : Move) (b : Board)
    (h64 : pieces64 b) (ht : m.toSq < 64) : pieces64 (mmPromo K m b) := by
  unfold mmPromo
  by_cases hc : m.promo ≠ 0
  · rw [if_pos hc]
    intro c2 p2
    apply pieces64_setPiece
    · intro c3 p3
      exact pieces64_setPiece b.pieces b.side PAWN _ h64
        (Nat.xor_lt_two_pow (h64 b.side PAWN) (single_lt _ ht)) c3 p3
    · exact Nat.xor_lt_two_pow
        (pieces64_setPiece b.pieces b.side PAWN _ h64
          (Nat.xor_lt_two_pow (h64 b.side PAWN) (single_lt _ ht)) b.side m.promo)
        (single_lt _ ht)
  · rw [if_neg hc]
    exact h64

theorem coh_mmPromo (K : ZKeys) (m : Move) (b : Board)
    (h64 : pieces64 b) (hside : b.side < 2) (ht : m.toSq < 64) (hpr : m.promo < 6)
    (hcoh : b.hash = zobristHash K b) :
    (mmPromo K m b).hash = zobristHash K (mmPromo K m b) := by
  unfold mmPromo
  by_cases hc : m.promo ≠ 0
  · rw [if_pos hc]
    have step1 := coh_singleUpdate K b b.side PAWN m.toSq h64 hside (by decide) ht hcoh
    have h64b1 : pieces64 ({ b with
        pieces := setPiece b.pieces b.side PAWN (b.pieces b.side PAWN ^^^ (1 <<< m.toSq)),
        hash := b.hash ^^^ K.piece b.side PAWN m.toSq } : Board) := fun c2 p2 =>
      pieces64_setPiece b.pieces b.side PAWN _ h64
        (Nat.xor_lt_two_pow (h64 b.side PAWN) (single_lt _ ht)) c2 p2
    exact coh_singleUpdate K
      { b with
        pieces := setPiece b.pieces b.side PAWN (b.pieces b.side PAWN ^^^ (1 <<< m.toSq)),
        hash := b.hash ^^^ K.piece b.side PAWN m.toSq }
      b.side m.promo m.toSq h64b1 hside hpr ht step1
  · rw [if_neg hc]
    exact hcoh

theorem mmCastleRook_ep (K : ZKeys) (m : Move) (b : Board) :
    (mmCastleRook K m b).ep = b.ep := by
  unfold mmCastleRook
  split <;> try rfl
  split <;> try rfl
  split <;> try rfl
  split <;> try rfl
  split <;> try rfl
  split <;> rfl

theorem mmCastleRook_castle (K : ZKeys) (m : Move) (b : Board) :
    (mmCastleRook K m b).castle = b.castle := by
  unfold mmCastleRook
  split <;> try rfl
  split <;> try rfl
  split <;> try rfl
  split <;> try rfl
  split <;> try rfl
  split <;> rfl

theorem mmCastleRook_side (K : ZKeys) (m : Move) (b : Board) :
    (mmCastleRook K m b).side = b.side := by
  unfold mmCastleRook
  split <;> try rfl
  split <;> try rfl
  split <;> try rfl
  split <;> try rfl
  split <;> try rfl
  split <;> rfl

theorem pieces64_mmCastleRook (K : ZKeys) (m : Move) (b : Board)
    (h64 : pieces64 b) : pieces64 (mmCastleRook K m b) := by
  unfold mmCastleRook
  split
  · split
    · split
      · exact fun c2 p2 => pieces64_setPiece b.pieces WHITE ROOK _ h64
          (Nat.xor_lt_two_pow (h64 WHITE ROOK) (double_lt 7 5 (by decide) (by decide))) c2 p2
      · split
        · exact fun c2 p2 => pieces64_setPiece b.pieces WHITE ROOK _ h64
            (Nat.xor_lt_two_pow (h64 WHITE ROOK) (double_lt 0 3 (by decide) (by decide))) c2 p2
        · split
          · exact fun c2 p2 => pieces64_setPiece b.pieces BLACK ROOK _ h64
              (Nat.xor_lt_two_pow (h64 BLACK ROOK) (double_lt 63 61 (by decide) (by decide))) c2 p2
          · split
            · exact fun c2 p2 => pieces64_setPiece b.pieces BLACK ROOK _ h64
                (Nat.xor_lt_two_pow (h64 BLACK ROOK) (double_lt 56 59 (by decide) (by decide))) c2 p2
            · exact h64
    · exact h64
  · exact h64

theorem coh_mmCastleRook (K : ZKeys) (m : Move) (b : Board)
    (h64 : pieces64 b) (hcoh : b.hash = zobristHash K b) :
    (mmCastleRook K m b).hash = zobristHash K (mmCastleRook K m b) := by
  unfold mmCastleRook
  split
  · split
    · split
      · exact coh_pairedUpdate K b WHITE ROOK 7 5 h64 (by decide) (by decide)
          (by decide) (by decide) (by decide) hcoh
      · split
        · exact coh_pairedUpdate K b WHITE ROOK 0 3 h64 (by decide) (by decide)
            (by decide) (by decide) (by decide) hcoh
        · split
          · exact coh_pairedUpdate K b BLACK ROOK 63 61 h64 (by decide) (by decide)
              (by decide) (by decide) (by decide) hcoh
          · split
            · exact coh_pairedUpdate K b BLACK ROOK 56 59 h64 (by decide) (by decide)
                (by decide) (by decide) (by decide) hcoh
            · exact hcoh
    · exact hcoh
  · exact hcoh

theorem update_pieces (b : Board) : b.update.pieces = b.pieces := rfl

theorem update_castle (b : Board) : b.update.castle = b.castle := rfl

theorem update_ep (b : Board) : b.update.ep = b.ep := rfl

theorem update_side (b : Board) : b.update.side = b.side := rfl

theorem update_hash (b : Board) : b.update.hash = b.hash := rfl

theorem zobristHash_update (K : ZKeys) (b : Board) :
    zobristHash K b.update = zobristHash K b := rfl

theorem mmFlip_pieces (K : ZKeys) (b : Board) : (mmFlip K b).pieces = b.pieces := rfl

theorem mmFlip_ep (K : ZKeys) (b : Board) : (mmFlip K b).ep = b.ep := rfl

theorem mmFlip_castle (K : ZKeys) (b : Board) : (mmFlip K b).castle = b.castle := rfl

theorem mmFlip_side (K : ZKeys) (b : Board) : (mmFlip K b).side = 1 - b.side := rfl

theorem mmFlip_hash (K : ZKeys) (b : Board) : (mmFlip K b).hash = b.hash ^^^ K.side := rfl

theorem coh_mmFlip (K : ZKeys) (b : Board) (h64 : pieces64 b)
    (hside : b.side = 0 ∨ b.side = 1) (hcoh : b.hash = zobristHash K b) :
    (mmFlip K b).hash = zobristHash K (mmFlip K b) := by
  have h64f : pieces64 (mmFlip K b) := by
    intro c p
    rw [mmFlip_pieces]
    exact h64 c p
  rw [zobristHash_eq_canon K _ h64f, mmFlip_hash, mmFlip_pieces, mmFlip_castle,
      mmFlip_ep, mmFlip_side, hcoh, zobristHash_eq_canon K b h64]
  rcases hside with hs | hs <;>
    simp [hs, Nat.xor_assoc, Nat.xor_comm, xor_left_comm, xor_cancel_left]

/-! Composition: coherence and well-formedness of `makeMove`. -/

theorem mmCapture_ep (K : ZKeys) (m : Move) (b : Board) :
    (mmCapture K m b).ep = b.ep := mmCaptureAux_ep K (1 - b.side) m.toSq (1 <<< m.toSq) b _

theorem mmCapture_castle (K : ZKeys) (m : Move) (b : Board) :
    (mmCapture K m b).castle = b.castle := mmCaptureAux_castle K (1 - b.side) m.toSq (1 <<< m.toSq) b _

theorem mmCapture_side (K : ZKeys) (m : Move) (b : Board) :
    (mmCapture K m b).side = b.side := mmCaptureAux_side K (1 - b.side) m.toSq (1 <<< m.toSq) b _

theorem mmPawnSpecial_side (K : ZKeys) (m : Move) (prev_ep : Int) (b : Board) :
    (mmPawnSpecial K m prev_ep b).side = b.side := by
  unfold mmPawnSpecial
  split
  · rw [mmPromo_side, mmDoublePush_side, mmEpCap_side]
  · rfl

theorem mmPawnSpecial_castle (K : ZKeys) (m : Move) (prev_ep : Int) (b : Board) :
    (mmPawnSpecial K m prev_ep b).castle = b.castle := by
  unfold mmPawnSpecial
  split
  · rw [mmPromo_castle, mmDoublePush_castle, mmEpCap_castle]
  · rfl

theorem pieces64_mmPawnSpecial (K : ZKeys) (m : Move) (prev_ep : Int) (b : Board)
    (h64 : pieces64 b) (ht : m.toSq < 64)
    (hep : prev_ep = -1 ∨ (16 ≤ prev_ep ∧ prev_ep ≤ 23) ∨ (40 ≤ prev_ep ∧ prev_ep ≤ 47)) :
    pieces64 (mmPawnSpecial K m prev_ep b) := by
  unfold mmPawnSpecial
  split
  · exact pieces64_mmPromo K m _
      (pieces64_mmDoublePush K m _ (pieces64_mmEpCap K m prev_ep b h64 hep)) ht
  · exact h64

theorem coh_mmPawnSpecial (K : ZKeys) (m : Move) (prev_ep : Int) (b : Board)
    (h64 : pieces64 b) (hside : b.side < 2) (ht : m.toSq < 64) (hpr : m.promo < 6)
    (hep : prev_ep = -1 ∨ (16 ≤ prev_ep ∧ prev_ep ≤ 23) ∨ (40 ≤ prev_ep ∧ prev_ep ≤ 47))
    (hbep : b.ep = -1)
    (hchar : ((m.fromSq : Int) - m.toSq = 16 ∨ (m.toSq : Int) - m.fromSq = 16) →
      m.piece = PAWN →
      (b.side = 0 ∧ m.fromSq / 8 = 1 ∧ m.toSq = m.fromSq + 16) ∨
      (b.side = 1 ∧ m.fromSq / 8 = 6 ∧ m.fromSq = m.toSq + 16))
    (hcoh : b.hash = zobristHash K b) :
    (mmPawnSpecial K m prev_ep b).hash = zobristHash K (mmPawnSpecial K m prev_ep b) := by
  unfold mmPawnSpecial
  by_cases hk : m.piece = PAWN
  · rw [if_pos hk]
    have h64a := pieces64_mmEpCap K m prev_ep b h64 hep
    have hcoha := coh_mmEpCap K m prev_ep b h64 hside hep hcoh
    have hbepa : (mmEpCap K m prev_ep b).ep = -1 := by rw [mmEpCap_ep]; exact hbep
    have hchara : ((m.fromSq : Int) - m.toSq = 16 ∨ (m.toSq : Int) - m.fromSq = 16) →
        ((mmEpCap K m prev_ep b).side = 0 ∧ m.fromSq / 8 = 1 ∧ m.toSq = m.fromSq + 16) ∨
        ((mmEpCap K m prev_ep b).side = 1 ∧ m.fromSq / 8 = 6 ∧ m.fromSq = m.toSq + 16) := by
      rw [mmEpCap_side]
      exact fun hd => hchar hd hk
    have hcohb := coh_mmDoublePush K m _ h64a hbepa hchara hcoha
    have h64b := pieces64_mmDoublePush K m _ h64a
    have hsideb : (mmDoublePush K m (mmEpCap K m prev_ep b)).side < 2 := by
      rw [mmDoublePush_side, mmEpCap_side]
      exact hside
    exact coh_mmPromo K m _ h64b hsideb ht hpr hcohb
  · rw [if_neg hk]
    exact hcoh

theorem mmPawnSpecial_ep_char (K : ZKeys) (m : Move) (prev_ep : Int) (b : Board)
    (hbep : b.ep = -1)
    (hchar : ((m.fromSq : Int) - m.toSq = 16 ∨ (m.toSq : Int) - m.fromSq = 16) →
      m.piece = PAWN →
      (b.side = 0 ∧ m.fromSq / 8 = 1 ∧ m.toSq = m.fromSq + 16) ∨
      (b.side = 1 ∧ m.fromSq / 8 = 6 ∧ m.fromSq = m.toSq + 16)) :
    (mmPawnSpecial K m prev_ep b).ep = -1 ∨
      (16 ≤ (mmPawnSpecial K m prev_ep b).ep ∧ (mmPawnSpecial K m prev_ep b).ep ≤ 23) ∨
      (40 ≤ (mmPawnSpecial K m prev_ep b).ep ∧ (mmPawnSpecial K m prev_ep b).ep ≤ 47) := by
  unfold mmPawnSpecial
  by_cases hk : m.piece = PAWN
  · rw [if_pos hk, mmPromo_ep, mmDoublePush_ep, mmEpCap_side, mmEpCap_ep]
    by_cases hc : (m.fromSq : Int) - m.toSq = 16 ∨ (m.toSq : Int) - m.fromSq = 16
    · rw [if_pos hc]
      rcases hchar hc hk with ⟨hs, hr, _⟩ | ⟨hs, hr, _⟩
      · rw [if_pos hs]
        right; left
        omega
      · have hs1 : ¬ b.side = WHITE := by
          show ¬ b.side = 0
          omega
        rw [if_neg hs1]
        right; right
        omega
    · rw [if_neg hc]
      left
      exact hbep
  · rw [if_neg hk]
    left
    exact hbep

theorem makeMove_side (K : ZKeys) (b : Board) (m : Move) :
    (makeMove K b m).side = 1 - b.side := by
  unfold makeMove
  rw [mmFlip_side, mmCastleRook_side, mmPawnSpecial_side, mmCapture_side,
      mmCastleRights_side, mmClearEp_side, mmMovePiece_side]

theorem makeMove_ep (K : ZKeys) (b : Board) (m : Move) :
    (makeMove K b m).ep
      = (mmPawnSpecial K m b.ep (mmCapture K m
          (mmCastleRights K m (mmClearEp K (mmMovePiece K m b))))).ep := by
  unfold makeMove
  rw [mmFlip_ep, mmCastleRook_ep]

theorem pieces64_makeMove (K : ZKeys) (b : Board) (m : Move)
    (h64 : pieces64 b) (hf : m.fromSq < 64) (ht : m.toSq < 64)
    (hep : b.ep = -1 ∨ (16 ≤ b.ep ∧ b.ep ≤ 23) ∨ (40 ≤ b.ep ∧ b.ep ≤ 47)) :
    pieces64 (makeMove K b m) := by
  unfold makeMove
  intro c p
  rw [mmFlip_pieces]
  refine pieces64_mmCastleRook K m _ ?_ c p
  refine pieces64_mmPawnSpecial K m b.ep _ ?_ ht hep
  refine pieces64_mmCapture K m _ ?_ ht
  intro c2 p2
  rw [mmCastleRights_pieces, mmClearEp_pieces]
  exact pieces64_mmMovePiece K m b h64 hf ht c2 p2

theorem makeMove_WF (K : ZKeys) (b : Board) (m : Move) (hwf : WF b)
    (hf : m.fromSq < 64) (ht : m.toSq < 64)
    (hchar : ((m.fromSq : Int) - m.toSq = 16 ∨ (m.toSq : Int) - m.fromSq = 16) →
      m.piece = PAWN →
      (b.side = 0 ∧ m.fromSq / 8 = 1 ∧ m.toSq = m.fromSq + 16) ∨
      (b.side = 1 ∧ m.fromSq / 8 = 6 ∧ m.fromSq = m.toSq + 16)) :
    WF (makeMove K b m) := by
  obtain ⟨hside, h64, hep⟩ := hwf
  refine ⟨?_, pieces64_makeMove K b m h64 hf ht hep, ?_⟩
  · rw [makeMove_side]
    omega
  · rw [makeMove_ep]
    set b4 := mmCapture K m (mmCastleRights K m (mmClearEp K (mmMovePiece K m b))) with hb4
    have hbep4 : b4.ep = -1 := by
      rw [hb4, mmCapture_ep, mmCastleRights_ep, mmClearEp_ep]
    have hside4 : b4.side = b.side := by
      rw [hb4, mmCapture_side, mmCastleRights_side, mmClearEp_side, mmMovePiece_side]
    have hchar4 : ((m.fromSq : Int) - m.toSq = 16 ∨ (m.toSq : Int) - m.fromSq = 16) →
        m.piece = PAWN →
        (b4.side = 0 ∧ m.fromSq / 8 = 1 ∧ m.toSq = m.fromSq + 16) ∨
        (b4.side = 1 ∧ m.fromSq / 8 = 6 ∧ m.fromSq = m.toSq + 16) := by
      rw [hside4]
      exact hchar
    exact mmPawnSpecial_ep_char K m b.ep b4 hbep4 hchar4

theorem makeMove_coh (K : ZKeys) (b : Board) (m : Move) (hwf : WF b)
    (hf : m.fromSq < 64) (ht : m.toSq < 64) (hft : m.fromSq ≠ m.toSq)
    (hp : m.piece < 6) (hpr : m.promo < 6)
    (hchar : ((m.fromSq : Int) - m.toSq = 16 ∨ (m.toSq : Int) - m.fromSq = 16) →
      m.piece = PAWN →
      (b.side = 0 ∧ m.fromSq / 8 = 1 ∧ m.toSq = m.fromSq + 16) ∨
      (b.side = 1 ∧ m.fromSq / 8 = 6 ∧ m.fromSq = m.toSq + 16))
    (hcoh : b.hash = zobristHash K b) :
    (makeMove K b m).hash = zobristHash K (makeMove K b m) := by
  obtain ⟨hside, h64, hep⟩ := hwf
  have hside2 : b.side < 2 := by omega
  unfold makeMove
  have h64_1 := pieces64_mmMovePiece K m b h64 hf ht
  have hcoh1 := coh_mmMovePiece K m b h64 hside2 hp hf ht hft hcoh
  have h64_2 : pieces64 (mmClearEp K (mmMovePiece K m b)) := by
    intro c p
    rw [mmClearEp_pieces]
    exact h64_1 c p
  have hcoh2 := coh_mmClearEp K (mmMovePiece K m b) h64_1 hcoh1
  have h64_3 : pieces64 (mmCastleRights K m (mmClearEp K (mmMovePiece K m b))) := by
    intro c p
    rw [mmCastleRights_pieces]
    exact h64_2 c p
  have hcoh3 := coh_mmCastleRights K m (mmClearEp K (mmMovePiece K m b)) h64_2 hcoh2
  have h64_4 := pieces64_mmCapture K m _ h64_3 ht
  have hcoh4 := coh_mmCapture K m _ h64_3 ht hcoh3
  set b4 := mmCapture K m (mmCastleRights K m (mmClearEp K (mmMovePiece K m b))) with hb4
  have hside4 : b4.side = b.side := by
    rw [hb4, mmCapture_side, mmCastleRights_side, mmClearEp_side, mmMovePiece_side]
  have hbep4 : b4.ep = -1 := by
    rw [hb4, mmCapture_ep, mmCastleRights_ep, mmClearEp_ep]
  have hside4b : b4.side < 2 := by rw [hside4]; exact hside2
  have hchar4 : ((m.fromSq : Int) - m.toSq = 16 ∨ (m.toSq : Int) - m.fromSq = 16) →
      m.piece = PAWN →
      (b4.side = 0 ∧ m.fromSq / 8 = 1 ∧ m.toSq = m.fromSq + 16) ∨
      (b4.side = 1 ∧ m.fromSq / 8 = 6 ∧ m.fromSq = m.toSq + 16) := by
    rw [hside4]
    exact hchar
  have hcoh5 := coh_mmPawnSpecial K m b.ep b4 h64_4 hside4b ht hpr hep hbep4 hchar4 hcoh4
  have h64_5 := pieces64_mmPawnSpecial K m b.ep b4 h64_4 ht hep
  have hcoh6 := coh_mmCastleRook K m _ h64_5 hcoh5
  have h64_6 := pieces64_mmCastleRook K m _ h64_5
  have hside6 : (mmCastleRook K m (mmPawnSpecial K m b.ep b4)).side = 0 ∨
      (mmCastleRook K m (mmPawnSpecial K m b.ep b4)).side = 1 := by
    rw [mmCastleRook_side, mmPawnSpecial_side, hside4]
    exact hside
  exact coh_mmFlip K _ h64_6 hside6 hcoh6

/-! Shape facts about generated moves. -/

/-- The shape facts every pseudo-legal generated move satisfies: square
bounds, `from ≠ to`, kind bounds, and the double-push characterization
(a generated pawn move spanning 16 squares is a double push from the
mover's starting rank). -/
def validMove (b : Board) (m : Move) : Prop :=
  m.fromSq < 64 ∧ m.toSq < 64 ∧ m.fromSq ≠ m.toSq ∧ m.piece < 6 ∧ m.promo < 6 ∧
  (((m.fromSq : Int) - m.toSq = 16 ∨ (m.toSq : Int) - m.fromSq = 16) → m.piece = PAWN →
    (b.side = 0 ∧ m.fromSq / 8 = 1 ∧ m.toSq = m.fromSq + 16) ∨
    (b.side = 1 ∧ m.fromSq / 8 = 6 ∧ m.fromSq = m.toSq + 16))

theorem KingMoves_lt : ∀ sq, sq < 64 → KingMoves sq < 2 ^ 64 := by decide

theorem KnightMoves_lt : ∀ sq, sq < 64 → KnightMoves sq < 2 ^ 64 := by decide

theorem KingMoves_self : ∀ sq, sq < 64 → (KingMoves sq).testBit sq = false := by decide

theorem KnightMoves_self : ∀ sq, sq < 64 → (KnightMoves sq).testBit sq = false := by decide

theorem testBit_rayAttacks (blockers : Nat) :
    ∀ l : List Nat, ∀ i, (rayAttacks blockers l).testBit i = true → i ∈ l := by
  intro l
  induction l with
  | nil =>
    intro i h
    simp only [rayAttacks, zero_testBit_eq] at h
    exact Bool.noConfusion h
  | cons s rest ih =>
    intro i h
    have hstep : rayAttacks blockers (s :: rest)
        = (1 <<< s) ||| (if (1 <<< s) &&& blockers ≠ 0 then 0 else rayAttacks blockers rest) := rfl
    rw [hstep, Nat.testBit_or] at h
    rcases Bool.or_eq_true_iff.mp h with h1 | h2
    · have hpow : (1 <<< s : Nat) = 2 ^ s := by simp [Nat.shiftLeft_eq]
      rw [hpow, Nat.testBit_two_pow] at h1
      have : s = i := of_decide_eq_true h1
      rw [← this]
      exact List.mem_cons_self s rest
    · by_cases hb : (1 <<< s) &&& blockers ≠ 0
      · rw [if_pos hb, zero_testBit_eq] at h2
        exact Bool.noConfusion h2
      · rw [if_neg hb] at h2
        exact List.mem_cons_of_mem s (ih i h2)

theorem rayAttacks_lt (blockers : Nat) :
    ∀ l : List Nat, (∀ s ∈ l, s < 64) → rayAttacks blockers l < 2 ^ 64 := by
  intro l
  induction l with
  | nil =>
    intro _
    show (0 : Nat) < 2 ^ 64
    decide
  | cons s rest ih =>
    intro h
    have hstep : rayAttacks blockers (s :: rest)
        = (1 <<< s) ||| (if (1 <<< s) &&& blockers ≠ 0 then 0 else rayAttacks blockers rest) := rfl
    rw [hstep]
    apply Nat.or_lt_two_pow (single_lt s (h s (List.mem_cons_self s rest)))
    by_cases hb : (1 <<< s) &&& blockers ≠ 0
    · rw [if_pos hb]
      decide
    · rw [if_neg hb]
      exact ih (fun x hx => h x (List.mem_cons_of_mem s hx))

theorem get_rook_attacks_lt (sq blockers : Nat) (hsq : sq < 64) :
    get_rook_attacks sq blockers < 2 ^ 64 := by
  have htr : sq / 8 ≤ 7 := by omega
  have htf : sq % 8 ≤ 7 := by omega
  unfold get_rook_attacks
  apply Nat.or_lt_two_pow
  apply Nat.or_lt_two_pow
  apply Nat.or_lt_two_pow
  all_goals apply rayAttacks_lt
  all_goals intro x hx
  all_goals simp only [List.mem_map, List.mem_reverse, List.mem_range] at hx
  · obtain ⟨r, hr, hx⟩ := hx
    rw [List.mem_range'_1] at hr
    omega
  · obtain ⟨r, hr, hx⟩ := hx
    omega
  · obtain ⟨f, hf2, hx⟩ := hx
    rw [List.mem_range'_1] at hf2
    omega
  · obtain ⟨f, hf2, hx⟩ := hx
    omega

theorem get_rook_attacks_mem (sq blockers : Nat) (hsq : sq < 64) :
    ∀ i, (get_rook_attacks sq blockers).testBit i = true → i < 64 ∧ i ≠ sq := by
  have hdm : sq = (sq / 8) * 8 + sq % 8 := by omega
  have htr : sq / 8 ≤ 7 := by omega
  have htf : sq % 8 ≤ 7 := by omega
  intro i h
  unfold get_rook_attacks at h
  rw [Nat.testBit_or] at h
  rcases Bool.or_eq_true_iff.mp h with h | h4
  · rw [Nat.testBit_or] at h
    rcases Bool.or_eq_true_iff.mp h with h | h3
    · rw [Nat.testBit_or] at h
      rcases Bool.or_eq_true_iff.mp h with h1 | h2
      · have := testBit_rayAttacks blockers _ i h1
        simp only [List.mem_map] at this
        obtain ⟨r, hr, hi⟩ := this
        rw [List.mem_range'_1] at hr
        omega
      · have := testBit_rayAttacks blockers _ i h2
        simp only [List.mem_map, List.mem_reverse, List.mem_range] at this
        obtain ⟨r, hr, hi⟩ := this
        omega
    · have := testBit_rayAttacks blockers _ i h3
      simp only [List.mem_map] at this
      obtain ⟨f, hf2, hi⟩ := this
      rw [List.mem_range'_1] at hf2
      omega
  · have := testBit_rayAttacks blockers _ i h4
    simp only [List.mem_map, List.mem_reverse, List.mem_range] at this
    obtain ⟨f, hf2, hi⟩ := this
    omega

theorem get_bishop_attacks_lt (sq blockers : Nat) (hsq : sq < 64) :
    get_bishop_attacks sq blockers < 2 ^ 64 := by
  have htr : sq / 8 ≤ 7 := by omega
  have htf : sq % 8 ≤ 7 := by omega
  unfold get_bishop_attacks
  apply Nat.or_lt_two_pow
  apply Nat.or_lt_two_pow
  apply Nat.or_lt_two_pow
  all_goals apply rayAttacks_lt
  all_goals intro x hx
  all_goals simp only [List.mem_map] at hx
  all_goals obtain ⟨k, hk, hx⟩ := hx
  all_goals rw [List.mem_range'_1] at hk
  all_goals omega

theorem get_bishop_attacks_mem (sq blockers : Nat) (hsq : sq < 64) :
    ∀ i, (get_bishop_attacks sq blockers).testBit i = true → i < 64 ∧ i ≠ sq := by
  have hdm : sq = (sq / 8) * 8 + sq % 8 := by omega
  have htr : sq / 8 ≤ 7 := by omega
  have htf : sq % 8 ≤ 7 := by omega
  intro i h
  unfold get_bishop_attacks at h
  rw [Nat.testBit_or] at h
  rcases Bool.or_eq_true_iff.mp h with h | h4
  · rw [Nat.testBit_or] at h
    rcases Bool.or_eq_true_iff.mp h with h | h3
    · rw [Nat.testBit_or] at h
      rcases Bool.or_eq_true_iff.mp h with h1 | h2
      · have := testBit_rayAttacks blockers _ i h1
        simp only [List.mem_map] at this
        obtain ⟨k, hk, hi⟩ := this
        rw [List.mem_range'_1] at hk
        omega
      · have := testBit_rayAttacks blockers _ i h2
        simp only [List.mem_map] at this
        obtain ⟨k, hk, hi⟩ := this
        rw [List.mem_range'_1] at hk
        omega
    · have := testBit_rayAttacks blockers _ i h3
      simp only [List.mem_map] at this
      obtain ⟨k, hk, hi⟩ := this
      rw [List.mem_range'_1] at hk
      omega
  · have := testBit_rayAttacks blockers _ i h4
    simp only [List.mem_map] at this
    obtain ⟨k, hk, hi⟩ := this
    rw [List.mem_range'_1] at hk
    omega

theorem testBit_lt_64 (A i : Nat) (hA : A < 2 ^ 64) (h : A.testBit i = true) : i < 64 := by
  by_contra hge
  have : A < 2 ^ i :=
    Nat.lt_of_lt_of_le hA (Nat.pow_le_pow_right (by decide) (by omega))
  rw [Nat.testBit_lt_two_pow this] at h
  exact Bool.noConfusion h

set_option maxHeartbeats 1000000 in
theorem pawnCapDir_valid (b : Board) (co : Bool) (f : Nat) (pr d : Int) (hf : f < 64)
    (hd : d = 7 ∨ d = 9 ∨ d = -7 ∨ d = -9) :
    ∀ m ∈ pawnCapDir b co f pr d, validMove b m := by
  intro m hm
  simp only [pawnCapDir] at hm
  split_ifs at hm
  all_goals simp only [List.mem_singleton, List.not_mem_nil] at hm
  all_goals subst hm
  all_goals simp only [validMove, mkMove, PAWN, QUEEN]
  all_goals omega

set_option maxHeartbeats 1000000 in
theorem pawnGen_valid (b : Board) (co : Bool) (f : Nat) (hf : f < 64)
    (hside : b.side = 0 ∨ b.side = 1) :
    ∀ m ∈ pawnGen b co f, validMove b m := by
  intro m hm
  unfold pawnGen at hm
  rw [List.mem_append] at hm
  rcases hm with hm | hm
  · by_cases hs : b.side = WHITE
    case pos =>
      have hs0 : b.side = 0 := hs
      simp only [hs, eq_self_iff_true, if_true, if_false, ite_true, ite_false] at hm
      split_ifs at hm
      all_goals try simp only [List.nil_append, List.mem_append, List.mem_cons,
        List.not_mem_nil, or_false, false_or, List.mem_singleton] at hm
      all_goals try rcases hm with hm | hm
      all_goals try subst hm
      all_goals simp only [validMove, mkMove, PAWN, QUEEN]
      all_goals omega
    case neg =>
      have hs0 : ¬ b.side = 0 := hs
      simp only [hs, eq_self_iff_true, if_true, if_false, ite_true, ite_false] at hm
      split_ifs at hm
      all_goals try simp only [List.nil_append, List.mem_append, List.mem_cons,
        List.not_mem_nil, or_false, false_or, List.mem_singleton] at hm
      all_goals try rcases hm with hm | hm
      all_goals try subst hm
      all_goals simp only [validMove, mkMove, PAWN, QUEEN]
      all_goals omega
  · rw [List.mem_append] at hm
    by_cases hs : b.side = WHITE
    all_goals simp only [hs, eq_self_iff_true, if_true, if_false, ite_true, ite_false] at hm
    all_goals rcases hm with hm | hm
    all_goals exact pawnCapDir_valid b co f _ _ hf (by omega) m hm

theorem castleGen_valid (b : Board) : ∀ m ∈ castleGen b, validMove b m := by
  intro m hm
  unfold castleGen at hm
  split_ifs at hm
  all_goals simp only [List.mem_append, List.mem_singleton, List.not_mem_nil,
    or_false, false_or] at hm
  all_goals try rcases hm with hm | hm
  all_goals try subst hm
  all_goals simp only [validMove, mkMove, KING, PAWN]
  all_goals omega

theorem bit_of_mem_masked (A y t : Nat) (hA : A < 2 ^ 64)
    (ht : t ∈ bitList (A &&& y)) : A.testBit t = true ∧ t < 64 := by
  have hlt : A &&& y < 2 ^ 64 := Nat.lt_of_le_of_lt Nat.and_le_left hA
  have h1 := mem_bitList_testBit _ hlt t ht
  rw [Nat.testBit_and] at h1
  exact ⟨(Bool.and_eq_true_iff.mp h1).1, mem_bitList_lt _ t hlt ht⟩

set_option maxHeartbeats 1000000 in
theorem genFrom_valid (b : Board) (co : Bool) (p f : Nat) (hwf : WF b) (hf : f < 64) :
    ∀ m ∈ genFrom b co p f, validMove b m := by
  obtain ⟨hside, h64, _⟩ := hwf
  intro m hm
  unfold genFrom at hm
  by_cases hp0 : p = PAWN
  · rw [if_pos hp0] at hm
    exact pawnGen_valid b co f hf hside m hm
  · rw [if_neg hp0] at hm
    by_cases hpk : p = KING ∧ co = false
    · rw [if_pos hpk] at hm
      rw [List.mem_append] at hm
      rcases hm with hm | hm
      · exact castleGen_valid b m hm
      · simp only [List.mem_map] at hm
        obtain ⟨t, htl, hmm⟩ := hm
        have hlt : KingMoves f < 2 ^ 64 := KingMoves_lt f hf
        obtain ⟨htb1, ht64⟩ := bit_of_mem_masked _ _ t hlt htl
        have htne : t ≠ f := by
          intro he
          rw [he, KingMoves_self f hf] at htb1
          exact Bool.noConfusion htb1
        obtain ⟨hk, _⟩ := hpk
        subst hk
        subst hmm
        simp only [validMove, mkMove, KING, PAWN]
        omega
    · rw [if_neg hpk] at hm
      simp only [List.mem_map] at hm
      obtain ⟨t, htl, hmm⟩ := hm
      have hmsk : (if co then
            (if p = KNIGHT then KnightMoves f
             else if p = BISHOP then get_bishop_attacks f b.all
             else if p = ROOK then get_rook_attacks f b.all
             else if p = QUEEN then get_rook_attacks f b.all ||| get_bishop_attacks f b.all
             else if p = KING then KingMoves f
             else 0) &&& b.occupied (1 - b.side)
          else
            (if p = KNIGHT then KnightMoves f
             else if p = BISHOP then get_bishop_attacks f b.all
             else if p = ROOK then get_rook_attacks f b.all
             else if p = QUEEN then get_rook_attacks f b.all ||| get_bishop_attacks f b.all
             else if p = KING then KingMoves f
             else 0) &&& (MASK64 ^^^ b.occupied b.side))
          = (if p = KNIGHT then KnightMoves f
             else if p = BISHOP then get_bishop_attacks f b.all
             else if p = ROOK then get_rook_attacks f b.all
             else if p = QUEEN then get_rook_attacks f b.all ||| get_bishop_attacks f b.all
             else if p = KING then KingMoves f
             else 0) &&&
            (if co then b.occupied (1 - b.side) else MASK64 ^^^ b.occupied b.side) := by
        cases co <;> rfl
      rw [hmsk] at htl
      have hfacts : (if p = KNIGHT then KnightMoves f
          else if p = BISHOP then get_bishop_attacks f b.all
          else if p = ROOK then get_rook_attacks f b.all
          else if p = QUEEN then get_rook_attacks f b.all ||| get_bishop_attacks f b.all
          else if p = KING then KingMoves f
          else 0) < 2 ^ 64 ∧
          (∀ i, (if p = KNIGHT then KnightMoves f
            else if p = BISHOP then get_bishop_attacks f b.all
            else if p = ROOK then get_rook_attacks f b.all
            else if p = QUEEN then get_rook_attacks f b.all ||| get_bishop_attacks f b.all
            else if p = KING then KingMoves f
            else 0).testBit i = true → i < 64 ∧ i ≠ f ∧ p < 6) := by
        by_cases h1 : p = KNIGHT
        · simp only [h1, if_true, ite_true]
          refine ⟨KnightMoves_lt f hf, fun i hi => ?_⟩
          refine ⟨testBit_lt_64 _ i (KnightMoves_lt f hf) hi, ?_, by decide⟩
          intro he
          rw [he, KnightMoves_self f hf] at hi
          exact Bool.noConfusion hi
        · simp only [h1, if_false, ite_false]
          by_cases h2 : p = BISHOP
          · simp only [h2, if_true, ite_true]
            refine ⟨get_bishop_attacks_lt f b.all hf, fun i hi => ?_⟩
            obtain ⟨hi1, hi2⟩ := get_bishop_attacks_mem f b.all hf i hi
            exact ⟨hi1, hi2, by decide⟩
          · simp only [h2, if_false, ite_false]
            by_cases h3 : p = ROOK
            · simp only [h3, if_true, ite_true]
              refine ⟨get_rook_attacks_lt f b.all hf, fun i hi => ?_⟩
              obtain ⟨hi1, hi2⟩ := get_rook_attacks_mem f b.all hf i hi
              exact ⟨hi1, hi2, by decide⟩
            · simp only [h3, if_false, ite_false]
              by_cases h4 : p = QUEEN
              · simp only [h4, if_true, ite_true]
                refine ⟨Nat.or_lt_two_pow (get_rook_attacks_lt f b.all hf)
                  (get_bishop_attacks_lt f b.all hf), fun i hi => ?_⟩
                rw [Nat.testBit_or] at hi
                rcases Bool.or_eq_true_iff.mp hi with hi | hi
                · obtain ⟨hi1, hi2⟩ := get_rook_attacks_mem f b.all hf i hi
                  exact ⟨hi1, hi2, by decide⟩
                · obtain ⟨hi1, hi2⟩ := get_bishop_attacks_mem f b.all hf i hi
                  exact ⟨hi1, hi2, by decide⟩
              · simp only [h4, if_false, ite_false]
                by_cases h5 : p = KING
                · simp only [h5, if_true, ite_true]
                  refine ⟨KingMoves_lt f hf, fun i hi => ?_⟩
                  refine ⟨testBit_lt_64 _ i (KingMoves_lt f hf) hi, ?_, by decide⟩
                  intro he
                  rw [he, KingMoves_self f hf] at hi
                  exact Bool.noConfusion hi
                · simp only [h5, if_false, ite_false]
                  refine ⟨by decide, fun i hi => ?_⟩
                  rw [zero_testBit_eq] at hi
                  exact Bool.noConfusion hi
      obtain ⟨hA64, hAmem⟩ := hfacts
      obtain ⟨hbt, ht64⟩ := bit_of_mem_masked _ _ t hA64 htl
      obtain ⟨hti, htne, hp6⟩ := hAmem t hbt
      subst hmm
      have hp0n : p ≠ 0 := hp0
      simp only [validMove, mkMove, PAWN]
      omega

theorem pseudoMoves_valid (b : Board) (co : Bool) (hwf : WF b) :
    ∀ m ∈ pseudoMoves b co, validMove b m := by
  intro m hm
  unfold pseudoMoves at hm
  simp only [List.mem_flatMap] at hm
  obtain ⟨p, hp, f, hfl, hmm⟩ := hm
  have hf64 : f < 64 := mem_bitList_lt _ f (hwf.2.1 b.side p) hfl
  exact genFrom_valid b co p f hwf hf64 m hmm

theorem generateMoves_mem (K : ZKeys) (b : Board) (co : Bool) (m : Move)
    (hm : m ∈ generateMoves K b co) :
    m ∈ pseudoMoves b co ∧ isLegalMove K b m = true := by
  unfold generateMoves at hm
  refine ⟨List.mem_of_mem_filter hm, ?_⟩
  have h := List.of_mem_filter hm
  simpa using h

theorem init_WF (K : ZKeys) : WF (Board.init K) := by
  refine ⟨Or.inl rfl, ?_, Or.inl rfl⟩
  intro c p
  show startPieces c p < 2 ^ 64
  unfold startPieces
  split_ifs <;> decide

theorem init_coh (K : ZKeys) : (Board.init K).hash = zobristHash K (Board.init K) := rfl

inductive Reachable (K : ZKeys) : Board → Prop where
  | base : Reachable K (Board.init K)
  | step (b : Board) (m : Move) (co : Bool) (hb : Reachable K b)
      (hm : m ∈ generateMoves K b co) : Reachable K (makeMove K b m)

theorem reachable_WF_coh (K : ZKeys) (b : Board) (h : Reachable K b) :
    WF b ∧ b.hash = zobristHash K b := by
  induction h with
  | base => exact ⟨init_WF K, init_coh K⟩
  | step b m co hb hm ih =>
    obtain ⟨hwf, hcoh⟩ := ih
    obtain ⟨hmem, -⟩ := generateMoves_mem K b co m hm
    obtain ⟨hf, ht, hft, hp, hpr, hchar⟩ := pseudoMoves_valid b co hwf m hmem
    exact ⟨makeMove_WF K b m hwf hf ht hchar,
      makeMove_coh K b m hwf hf ht hft hp hpr hchar hcoh⟩

def K0 : ZKeys :=
  { piece := fun c p sq => 1 + c + 2 * p + 12 * sq,
    castle := fun c => 801 + c,
    ep := fun e => 901 + e,
    side := 12345 }

/-- Claim C1: along every position reachable from the start position by
applying moves of the legal generator with `makeMove`, the incrementally
maintained `hash` equals the Zobrist hash recomputed from scratch. -/
theorem claim_C1_hash_coherence (K : ZKeys) (b : Board) (h : Reachable K b) :
    b.hash = zobristHash K b :=
  (reachable_WF_coh K b h).2

theorem claim_C1_witness :
    (makeMove K0 (Board.init K0) (mkMove 12 28 0 (-1) 0)).hash
      = zobristHash K0 (makeMove K0 (Board.init K0) (mkMove 12 28 0 (-1) 0)) :=
  claim_C1_hash_coherence K0 _
    (Reachable.step (Board.init K0) (mkMove 12 28 0 (-1) 0) false Reachable.base
      (by decide))

/-- Claim C2: every move returned by `generateMoves` (captures-only or full),
played with `makeMove` on a copy, leaves the moving side's king present and
not attacked by the new side to move. -/
theorem claim_C2_legality (K : ZKeys) (b : Board) (co : Bool) (m : Move)
    (hm : m ∈ generateMoves K b co) :
    (makeMove K b m).pieces b.side KING ≠ 0 ∧
    is_attacked (ctz ((makeMove K b m).pieces b.side KING)) (makeMove K b m).side
      (makeMove K b m) = false := by
  obtain ⟨-, hleg⟩ := generateMoves_mem K b co m hm
  simp only [isLegalMove] at hleg
  by_cases h0 : (makeMove K b m).pieces b.side KING = 0
  · rw [if_pos h0] at hleg
    exact Bool.noConfusion hleg
  · rw [if_neg h0] at hleg
    exact ⟨h0, by simpa using hleg⟩

theorem claim_C2_witness :
    (mkMove 12 28 0 (-1) 0) ∈ generateMoves K0 (Board.init K0) false ∧
    ((makeMove K0 (Board.init K0) (mkMove 12 28 0 (-1) 0)).pieces
        (Board.init K0).side KING ≠ 0 ∧
      is_attacked
        (ctz ((makeMove K0 (Board.init K0) (mkMove 12 28 0 (-1) 0)).pieces
          (Board.init K0).side KING))
        (makeMove K0 (Board.init K0) (mkMove 12 28 0 (-1) 0)).side
        (makeMove K0 (Board.init K0) (mkMove 12 28 0 (-1) 0)) = false) :=
  ⟨by decide, claim_C2_legality K0 (Board.init K0) false (mkMove 12 28 0 (-1) 0) (by decide)⟩

/-- Claim C4: refuted — the null-move flip of `search` XORs only the side
key (`copy.hash ^= zobristSide`) and never the en-passant key: on any
hash-coherent position with `ep` set, the flipped position's `hash` differs
from its from-scratch Zobrist hash by exactly the stale en-passant key. -/
theorem claim_C4_null_flip_stale_ep (K : ZKeys) (b : Board) (h64 : pieces64 b)
    (hside : b.side = 0 ∨ b.side = 1) (hep : b.ep ≠ -1)
    (hcoh : b.hash = zobristHash K b) :
    (nullFlip K b).hash ^^^ zobristHash K (nullFlip K b) = K.ep b.ep.toNat := by
  have h64f : pieces64 (nullFlip K b) := fun c p => h64 c p
  have hzb := zobristHash_eq_canon K b h64
  have hzf := zobristHash_eq_canon K (nullFlip K b) h64f
  have hpp : (nullFlip K b).pieces = b.pieces := rfl
  have hcc : (nullFlip K b).castle = b.castle := rfl
  have hee : (nullFlip K b).ep = -1 := rfl
  have hss : (nullFlip K b).side = 1 - b.side := rfl
  have hhh : (nullFlip K b).hash = b.hash ^^^ K.side := rfl
  rw [hhh, hzf, hpp, hcc, hee, hss, hcoh, hzb]
  rw [if_pos hep, if_neg (show ¬((-1 : Int) ≠ -1) from fun h => h rfl)]
  rcases hside with hs | hs
  · rw [hs, if_neg (show ¬((0 : Nat) = 1) from by decide),
        if_pos (show 1 - 0 = 1 from rfl)]
    simp [Nat.xor_assoc, Nat.xor_comm, xor_left_comm, xor_cancel_left]
  · rw [hs, if_pos (show (1 : Nat) = 1 from rfl),
        if_neg (show ¬((1 : Nat) - 1 = 1) from by decide)]
    simp [Nat.xor_assoc, Nat.xor_comm, xor_left_comm, xor_cancel_left]

theorem claim_C4_witness :
    (nullFlip K0 (makeMove K0 (Board.init K0) (mkMove 12 28 0 (-1) 0))).hash ^^^
      zobristHash K0 (nullFlip K0 (makeMove K0 (Board.init K0) (mkMove 12 28 0 (-1) 0)))
      = K0.ep (makeMove K0 (Board.init K0) (mkMove 12 28 0 (-1) 0)).ep.toNat := by
  have h := reachable_WF_coh K0 _
    (Reachable.step (Board.init K0) (mkMove 12 28 0 (-1) 0) false Reachable.base (by decide))
  exact claim_C4_null_flip_stale_ep K0 _ h.1.2.1 h.1.1 (by decide) h.2

/-- Claim C5: refuted — `KillerMoves` stores `Move*` pointers and both
`isKiller` and `update` compare addresses, not `(from, to, promo)` values:
a quiet move whose value equals the recorded killer's pointee but which sits
at a different address is not seen as a killer and falls through to the
history score instead of 90000. -/
theorem claim_C5_killer_address_compare :
    ∃ (mem : Nat → Move) (ks : KillerState) (a1 a2 : Nat) (b : Board),
      moveEq (mem a2) (mem a1) = true ∧
      (ks.killers 0).1 = some a1 ∧ a1 ≠ a2 ∧
      isKiller ks a2 0 = false ∧
      (scoreOne b none (fun _ _ _ => 0) ks 0 a2 (mem a2)).score = 0 := by
  refine ⟨fun a => mkMove 6 21 1 (-1) 0,
    ⟨fun p => if p = 0 then (some 100, none) else (none, none)⟩,
    100, 200, Board.init K0, rfl, rfl, by decide, by decide, by decide⟩

/-- Claim C7 (amended): in the move-loop tail of `search`, the history
entry `history[side][from][to]` is updated (incremented by depth², every
entry halved when the bumped entry exceeds 100000) exactly when the move is
quiet (no opponent piece on `to`) and the returned score raises alpha —
including raises that do not reach beta, not only beta cutoffs. -/
theorem claim_C7_history_on_alpha_raise (b : Board) (m : Move) (addr : Nat)
    (score depth beta : Int) (inCheck : Bool) (moveCount : Int) (ply : Nat)
    (st : LoopState) :
    (searchMoveStep b m addr score depth beta inCheck moveCount ply st).hist
      = if score > st.alpha ∧ b.occupied (1 - b.side) &&& (1 <<< m.toSq) = 0 then
          historyUpdate st.hist b.side m.fromSq m.toSq depth
        else st.hist := by
  simp only [searchMoveStep]
  by_cases h1 : score > st.bestScore
  · simp only [if_pos h1]
    by_cases h2 : score > st.alpha
    · by_cases hq : b.occupied (1 - b.side) &&& (1 <<< m.toSq) = 0
      · have hcq : score > st.alpha ∧ b.occupied (1 - b.side) &&& (1 <<< m.toSq) = 0 :=
          ⟨h2, hq⟩
        simp only [if_pos h2, if_pos hq, if_pos hcq]
        split_ifs <;> rfl
      · have hcq : ¬(score > st.alpha ∧ b.occupied (1 - b.side) &&& (1 <<< m.toSq) = 0) :=
          fun hc => hq hc.2
        simp only [if_pos h2, if_neg hq, if_neg hcq]
        split_ifs <;> rfl
    · have hcq : ¬(score > st.alpha ∧ b.occupied (1 - b.side) &&& (1 <<< m.toSq) = 0) :=
        fun hc => h2 hc.1
      simp only [if_neg h2, if_neg hcq]
      split_ifs <;> rfl
  · simp only [if_neg h1]
    by_cases h2 : score > st.alpha
    · by_cases hq : b.occupied (1 - b.side) &&& (1 <<< m.toSq) = 0
      · have hcq : score > st.alpha ∧ b.occupied (1 - b.side) &&& (1 <<< m.toSq) = 0 :=
          ⟨h2, hq⟩
        simp only [if_pos h2, if_pos hq, if_pos hcq]
        split_ifs <;> rfl
      · have hcq : ¬(score > st.alpha ∧ b.occupied (1 - b.side) &&& (1 <<< m.toSq) = 0) :=
          fun hc => hq hc.2
        simp only [if_pos h2, if_neg hq, if_neg hcq]
        split_ifs <;> rfl
    · have hcq : ¬(score > st.alpha ∧ b.occupied (1 - b.side) &&& (1 <<< m.toSq) = 0) :=
        fun hc => h2 hc.1
      simp only [if_neg h2, if_neg hcq]
      split_ifs <;> rfl

/-- Claim C7 (counterexample): a quiet move raising alpha from -1000000 to
50 with beta = 1000 — no beta cutoff, the loop goes on — still gets its
history entry bumped by depth² = 9. -/
theorem claim_C7_counterexample :
    ((searchMoveStep (Board.init K0) (mkMove 6 21 1 (-1) 0) 0 50 3 1000 false 1 0
        ⟨-1000000, -1000000, mkMove 0 0 0 (-1) 0, mkMove 0 0 0 (-1) 0,
          fun _ _ _ => 0, ⟨fun _ => (none, none)⟩, false⟩).hist 0 6 21 = 9) ∧
    ((searchMoveStep (Board.init K0) (mkMove 6 21 1 (-1) 0) 0 50 3 1000 false 1 0
        ⟨-1000000, -1000000, mkMove 0 0 0 (-1) 0, mkMove 0 0 0 (-1) 0,
          fun _ _ _ => 0, ⟨fun _ => (none, none)⟩, false⟩).breakLoop = false) ∧
    ((searchMoveStep (Board.init K0) (mkMove 6 21 1 (-1) 0) 0 50 3 1000 false 1 0
        ⟨-1000000, -1000000, mkMove 0 0 0 (-1) 0, mkMove 0 0 0 (-1) 0,
          fun _ _ _ => 0, ⟨fun _ => (none, none)⟩, false⟩).alpha = 50) := by
  refine ⟨by decide, by decide, by decide⟩

/-- Claim C8: a transposition-table hit requires the stored hash to equal
the position's hash; when additionally the stored depth is at least the
current depth, an EXACT entry returns the stored score, an ALPHA entry
returns alpha when the stored score ≤ alpha, and a BETA entry returns beta
when the stored score ≥ beta. -/
theorem claim_C8_tt_probe (e : TTEntry) (hash : Nat) (depth alpha beta : Int) :
    (e.hash ≠ hash → ttProbe e hash depth alpha beta = none) ∧
    (e.hash = hash → e.depth ≥ depth →
      ((e.flag = TT_EXACT → ttProbe e hash depth alpha beta = some e.score) ∧
       (e.flag = TT_ALPHA → e.score ≤ alpha → ttProbe e hash depth alpha beta = some alpha) ∧
       (e.flag = TT_BETA → e.score ≥ beta → ttProbe e hash depth alpha beta = some beta))) := by
  unfold ttProbe
  refine ⟨fun hne => ?_, fun he hd => ⟨fun hf => ?_, fun hf hs => ?_, fun hf hs => ?_⟩⟩
  · rw [if_neg (fun hc : _ ∧ _ => hne hc.1)]
  · rw [if_pos ⟨he, hd⟩, if_pos hf]
  · rw [if_pos ⟨he, hd⟩, if_neg (by rw [hf]; decide), if_pos ⟨hf, hs⟩]
  · rw [if_pos ⟨he, hd⟩, if_neg (by rw [hf]; decide),
        if_neg (fun hc : _ ∧ _ => by rw [hf] at hc; exact absurd hc.1 (by decide)),
        if_pos ⟨hf, hs⟩]

theorem claim_C8_witness :
    ttProbe ⟨77, 5, 42, 0, 0⟩ 77 3 0 10 = some 42 :=
  ((claim_C8_tt_probe ⟨77, 5, 42, 0, 0⟩ 77 3 0 10).2 rfl (by decide)).1 rfl

/-- Claim C9: the static evaluation reads the side to move only in its
final negation: evaluating with side = BLACK is exactly the negation of
evaluating the same bitboards, castle and ep with side = WHITE. -/
theorem claim_C9_eval_side_negation (b : Board) :
    Board.evaluate { b with side := BLACK } = - Board.evaluate { b with side := WHITE } := rfl

theorem mvvLva_unique (b : Board) (m : Move) (v : Nat) (hv6 : v < 6)
    (hv : b.pieces (1 - b.side) v &&& (1 <<< m.toSq) ≠ 0)
    (huniq : ∀ p : Fin 6, (p : Nat) ≠ v →
      b.pieces (1 - b.side) (p : Nat) &&& (1 <<< m.toSq) = 0) :
    mvvLva b m [KING, QUEEN, ROOK, BISHOP, KNIGHT, PAWN]
      = 100000 + victimValue v * 10 - victimValue m.piece := by
  interval_cases v
  · have h5 : b.pieces (1 - b.side) 5 &&& (1 <<< m.toSq) = 0 := huniq ⟨5, by decide⟩ (by decide)
    have h4 : b.pieces (1 - b.side) 4 &&& (1 <<< m.toSq) = 0 := huniq ⟨4, by decide⟩ (by decide)
    have h3 : b.pieces (1 - b.side) 3 &&& (1 <<< m.toSq) = 0 := huniq ⟨3, by decide⟩ (by decide)
    have h2 : b.pieces (1 - b.side) 2 &&& (1 <<< m.toSq) = 0 := huniq ⟨2, by decide⟩ (by decide)
    have h1 : b.pieces (1 - b.side) 1 &&& (1 <<< m.toSq) = 0 := huniq ⟨1, by decide⟩ (by decide)
    simp only [mvvLva]
    rw [if_neg (not_not_intro h5), if_neg (not_not_intro h4), if_neg (not_not_intro h3),
        if_neg (not_not_intro h2), if_neg (not_not_intro h1), if_pos hv]
  · have h5 : b.pieces (1 - b.side) 5 &&& (1 <<< m.toSq) = 0 := huniq ⟨5, by decide⟩ (by decide)
    have h4 : b.pieces (1 - b.side) 4 &&& (1 <<< m.toSq) = 0 := huniq ⟨4, by decide⟩ (by decide)
    have h3 : b.pieces (1 - b.side) 3 &&& (1 <<< m.toSq) = 0 := huniq ⟨3, by decide⟩ (by decide)
    have h2 : b.pieces (1 - b.side) 2 &&& (1 <<< m.toSq) = 0 := huniq ⟨2, by decide⟩ (by decide)
    simp only [mvvLva]
    rw [if_neg (not_not_intro h5), if_neg (not_not_intro h4), if_neg (not_not_intro h3),
        if_neg (not_not_intro h2), if_pos hv]
  · have h5 : b.pieces (1 - b.side) 5 &&& (1 <<< m.toSq) = 0 := huniq ⟨5, by decide⟩ (by decide)
    have h4 : b.pieces (1 - b.side) 4 &&& (1 <<< m.toSq) = 0 := huniq ⟨4, by decide⟩ (by decide)
    have h3 : b.pieces (1 - b.side) 3 &&& (1 <<< m.toSq) = 0 := huniq ⟨3, by decide⟩ (by decide)
    simp only [mvvLva]
    rw [if_neg (not_not_intro h5), if_neg (not_not_intro h4), if_neg (not_not_intro h3),
        if_pos hv]
  · have h5 : b.pieces (1 - b.side) 5 &&& (1 <<< m.toSq) = 0 := huniq ⟨5, by decide⟩ (by decide)
    have h4 : b.pieces (1 - b.side) 4 &&& (1 <<< m.toSq) = 0 := huniq ⟨4, by decide⟩ (by decide)
    simp only [mvvLva]
    rw [if_neg (not_not_intro h5), if_neg (not_not_intro h4), if_pos hv]
  · have h5 : b.pieces (1 - b.side) 5 &&& (1 <<< m.toSq) = 0 := huniq ⟨5, by decide⟩ (by decide)
    simp only [mvvLva]
    rw [if_neg (not_not_intro h5), if_pos hv]
  · simp only [mvvLva]
    rw [if_pos hv]

/-- Claim C6 (amended): during move ordering, a capture move that is not the
TT move — absent, or present but different under `moveEq` on
`(from, to, promo)` — and whose target square holds an opponent piece scores
100000 + 10·V(victim) − V(attacker) (plus 80000 when it is a queen
promotion), the victim being the unique opponent piece kind standing on
`to`.  En-passant captures are not covered: their target square is empty, so
they fall to the quiet branch. -/
theorem claim_C6_capture_scores (b : Board) (ttMove : Option Move)
    (hist : Nat → Nat → Nat → Int)
    (ks : KillerState) (ply addr : Nat) (m : Move) (v : Nat) (hv6 : v < 6)
    (htt : ∀ tm ∈ ttMove, moveEq m tm = false)
    (hocc : b.occupied (1 - b.side) &&& (1 <<< m.toSq) ≠ 0)
    (hv : b.pieces (1 - b.side) v &&& (1 <<< m.toSq) ≠ 0)
    (huniq : ∀ p : Fin 6, (p : Nat) ≠ v →
      b.pieces (1 - b.side) (p : Nat) &&& (1 <<< m.toSq) = 0) :
    (scoreOne b ttMove hist ks ply addr m).score
      = 100000 + victimValue v * 10 - victimValue m.piece
        + (if m.promo = QUEEN then 80000 else 0) := by
  cases ttMove with
  | none =>
    simp only [scoreOne]
    rw [if_neg (show ¬(false = true) from by decide)]
    rw [if_pos hocc]
    rw [mvvLva_unique b m v hv6 hv huniq]
    by_cases hpr : m.promo = QUEEN
    · rw [if_pos hpr, if_pos hpr]
    · rw [if_neg hpr, if_neg hpr]
      dsimp only
      omega
  | some tm =>
    have htm : moveEq m tm = false := htt tm rfl
    simp only [scoreOne]
    rw [htm]
    rw [if_neg (show ¬(false = true) from by decide)]
    rw [if_pos hocc]
    rw [mvvLva_unique b m v hv6 hv huniq]
    by_cases hpr : m.promo = QUEEN
    · rw [if_pos hpr, if_pos hpr]
    · rw [if_neg hpr, if_neg hpr]
      dsimp only
      omega

def bC6w : Board :=
  makeMove K0 (makeMove K0 (Board.init K0) (mkMove 12 28 0 (-1) 0)) (mkMove 51 35 0 (-1) 0)

theorem claim_C6_witness :
    (scoreOne bC6w (some (mkMove 6 21 1 (-1) 0)) (fun _ _ _ => 0)
      ⟨fun _ => (none, none)⟩ 0 0 (mkMove 28 35 0 (-1) 0)).score = 100900 := by
  rw [claim_C6_capture_scores bC6w (some (mkMove 6 21 1 (-1) 0)) (fun _ _ _ => 0)
    ⟨fun _ => (none, none)⟩ 0 0 (mkMove 28 35 0 (-1) 0) 0 (by decide)
    (by
      intro tm htm
      simp only [Option.mem_def, Option.some.injEq] at htm
      subst htm
      decide)
    (by decide) (by decide) (by decide)]
  decide

def bC6 : Board :=
  makeMove K0 (makeMove K0 (makeMove K0 (makeMove K0 (Board.init K0)
    (mkMove 12 28 0 (-1) 0)) (mkMove 48 40 0 (-1) 0)) (mkMove 28 36 0 (-1) 0))
    (mkMove 51 35 0 (-1) 0)

/-- Claim C6 (counterexample): in the position after 1.e4 a6 2.e5 d5 the
generated en-passant capture e5xd6 — a capture whose victim is a pawn, which
the claim says scores 100000 + 10·100 − 100 = 100900 — receives ordering
score 0: the target square d6 is empty, so `scoreMoves` treats it as a
quiet move with empty history. -/
theorem claim_C6_ep_counterexample :
    bC6.ep = 43 ∧ (mkMove 36 43 0 (-1) 0) ∈ generateMoves K0 bC6 false ∧
    (scoreOne bC6 none (fun _ _ _ => 0) ⟨fun _ => (none, none)⟩ 0 0
      (mkMove 36 43 0 (-1) 0)).score = 0 :=
  ⟨by decide, by decide, by decide⟩

/-- The material fold of `Board::evaluate`. -/
def evalMaterial (b : Board) : Int :=
  (List.range 2).foldl (fun ev c =>
    (List.range 6).foldl (fun ev p =>
      let count : Int := (popcount (b.pieces c p) : Nat)
      ev + (if c = WHITE then count else -count) * pieceValue p) ev) 0

/-- The king-placement fold of `Board::evaluate`. -/
def evalKing (b : Board) (ev : Int) : Int :=
  (List.range 2).foldl (fun ev c =>
    if b.pieces c KING = 0 then ev
    else
      let king_sq := ctz (b.pieces c KING)
      if c = WHITE then
        if king_sq = 6 ∨ king_sq = 2 then ev + 40
        else if king_sq = 4 then ev - 20
        else ev
      else
        if king_sq = 62 ∨ king_sq = 58 then ev - 40
        else if king_sq = 60 then ev + 20
        else ev) ev

/-- The centre-pawn term of `Board::evaluate`. -/
def evalCenter (b : Board) : Int :=
  ((popcount (b.pieces WHITE PAWN &&& centerMask) : Int) -
   (popcount (b.pieces BLACK PAWN &&& centerMask) : Int)) * 20

/-- The white pawn-rank fold of `Board::evaluate`. -/
def evalWP (b : Board) (ev : Int) : Int :=
  (bitList (b.pieces WHITE PAWN)).foldl (fun ev sq =>
    let rank : Nat := sq / 8
    if 4 ≤ rank then ev + ((rank : Int) - 3) * 15 else ev) ev

/-- The black pawn-rank fold of `Board::evaluate`. -/
def evalBP (b : Board) (ev : Int) : Int :=
  (bitList (b.pieces BLACK PAWN)).foldl (fun ev sq =>
    let rank : Nat := sq / 8
    if rank ≤ 3 then ev - (4 - (rank : Int)) * 15 else ev) ev

theorem evaluate_decompose (b : Board) :
    b.evaluate =
      if b.side = WHITE then
        evalBP b (evalWP b (evalKing b (evalMaterial b) + evalCenter b))
      else -(evalBP b (evalWP b (evalKing b (evalMaterial b) + evalCenter b))) := rfl

theorem foldl_add_bounds (g : Int → Nat → Int) (c : Int) :
    ∀ (l : List Nat) (e : Int), (∀ x ∈ l, ∀ e2, e2 - c ≤ g e2 x ∧ g e2 x ≤ e2 + c) →
      e - c * l.length ≤ l.foldl g e ∧ l.foldl g e ≤ e + c * l.length := by
  intro l
  induction l with
  | nil => intro e h; simp
  | cons x t ih =>
    intro e h
    have hx := h x (List.mem_cons_self x t) e
    have ht := ih (g e x) (fun y hy e2 => h y (List.mem_cons_of_mem x hy) e2)
    simp only [List.foldl_cons, List.length_cons]
    push_cast
    have hexp : c * ((t.length : Int) + 1) = c * (t.length : Int) + c := by ring
    constructor
    · linarith [hx.1, ht.1]
    · linarith [hx.2, ht.2]

theorem evalKing_bounds (b : Board) (e : Int) :
    e - 80 ≤ evalKing b e ∧ evalKing b e ≤ e + 80 := by
  unfold evalKing
  simp only [show List.range 2 = [0, 1] from rfl, List.foldl_cons, List.foldl_nil]
  split_ifs <;> constructor <;> omega

theorem evalWP_bounds (b : Board) (h64 : pieces64 b) (e : Int) :
    e - 60 * ((bitList (b.pieces WHITE PAWN)).length : Int) ≤ evalWP b e ∧
    evalWP b e ≤ e + 60 * ((bitList (b.pieces WHITE PAWN)).length : Int) := by
  unfold evalWP
  refine foldl_add_bounds _ 60 _ e ?_
  intro x hx e2
  have hx64 : x < 64 := mem_bitList_lt _ x (h64 0 0) hx
  dsimp only
  split_ifs <;> constructor <;> omega

theorem evalBP_bounds (b : Board) (h64 : pieces64 b) (e : Int) :
    e - 60 * ((bitList (b.pieces BLACK PAWN)).length : Int) ≤ evalBP b e ∧
    evalBP b e ≤ e + 60 * ((bitList (b.pieces BLACK PAWN)).length : Int) := by
  unfold evalBP
  refine foldl_add_bounds _ 60 _ e ?_
  intro x hx e2
  have hx64 : x < 64 := mem_bitList_lt _ x (h64 1 0) hx
  dsimp only
  split_ifs <;> constructor <;> omega

theorem evalCenter_bounds (b : Board) (h64 : pieces64 b) :
    -80 ≤ evalCenter b ∧ evalCenter b ≤ 80 := by
  unfold evalCenter
  have hw : popcount (b.pieces WHITE PAWN &&& centerMask) ≤ 4 := by
    rw [popcount_eq_bitSum _ (Nat.lt_of_le_of_lt Nat.and_le_left (h64 0 0))]
    exact le_trans (bitSum_and_le _ centerMask 64) (by decide)
  have hb : popcount (b.pieces BLACK PAWN &&& centerMask) ≤ 4 := by
    rw [popcount_eq_bitSum _ (Nat.lt_of_le_of_lt Nat.and_le_left (h64 1 0))]
    exact le_trans (bitSum_and_le _ centerMask 64) (by decide)
  constructor <;> omega

set_option maxHeartbeats 1000000 in
theorem evalMaterial_bounds (b : Board) (h64 : pieces64 b)
    (hdis : (allCP.map fun cp => b.pieces cp.1 cp.2).Pairwise fun x y => x &&& y = 0) :
    -57600 ≤ evalMaterial b ∧ evalMaterial b ≤ 57600 := by
  have hall := sum_bitSum_pairwise_disjoint 64 _ hdis
  simp only [allCP, List.map_cons, List.map_nil, List.sum_cons, List.sum_nil,
    List.foldr_cons, List.foldr_nil] at hall
  have hsum : bitSum (b.pieces 0 0) 64 + (bitSum (b.pieces 0 1) 64 + (bitSum (b.pieces 0 2) 64 +
      (bitSum (b.pieces 0 3) 64 + (bitSum (b.pieces 0 4) 64 + (bitSum (b.pieces 0 5) 64 +
      (bitSum (b.pieces 1 0) 64 + (bitSum (b.pieces 1 1) 64 + (bitSum (b.pieces 1 2) 64 +
      (bitSum (b.pieces 1 3) 64 + (bitSum (b.pieces 1 4) 64 + (bitSum (b.pieces 1 5) 64 +
      0))))))))))) ≤ 64 := by
    rw [hall]
    exact bitSum_le 64 _
  unfold evalMaterial
  simp only [show List.range 2 = [0, 1] from rfl, show List.range 6 = [0, 1, 2, 3, 4, 5] from rfl,
    List.foldl_cons, List.foldl_nil]
  rw [popcount_eq_bitSum _ (h64 0 0), popcount_eq_bitSum _ (h64 0 1),
      popcount_eq_bitSum _ (h64 0 2), popcount_eq_bitSum _ (h64 0 3),
      popcount_eq_bitSum _ (h64 0 4), popcount_eq_bitSum _ (h64 0 5),
      popcount_eq_bitSum _ (h64 1 0), popcount_eq_bitSum _ (h64 1 1),
      popcount_eq_bitSum _ (h64 1 2), popcount_eq_bitSum _ (h64 1 3),
      popcount_eq_bitSum _ (h64 1 4), popcount_eq_bitSum _ (h64 1 5)]
  norm_num [pieceValue]
  constructor <;> omega

set_option maxHeartbeats 1000000 in
/-- Claim C10: for every board state whose twelve per-(side, kind) piece
bitboards fit in 64 bits and are pairwise disjoint, the absolute value of
the static evaluation is strictly below MATE - 1000 = 99000, so a stand-pat
or futility evaluation never reaches the mate-threshold test. -/
theorem claim_C10_eval_below_mate_threshold (b : Board) (h64 : pieces64 b)
    (hdis : (allCP.map fun cp => b.pieces cp.1 cp.2).Pairwise fun x y => x &&& y = 0) :
    |b.evaluate| < MATE - 1000 := by
  have hM := evalMaterial_bounds b h64 hdis
  have hC := evalCenter_bounds b h64
  have hK := evalKing_bounds b (evalMaterial b)
  have hW := evalWP_bounds b h64 (evalKing b (evalMaterial b) + evalCenter b)
  have hB := evalBP_bounds b h64 (evalWP b (evalKing b (evalMaterial b) + evalCenter b))
  have hlw : ((bitList (b.pieces WHITE PAWN)).length : Int) ≤ 64 := by
    rw [bitList_length _ (h64 0 0)]
    have := bitSum_le 64 (b.pieces 0 0)
    omega
  have hlb : ((bitList (b.pieces BLACK PAWN)).length : Int) ≤ 64 := by
    rw [bitList_length _ (h64 1 0)]
    have := bitSum_le 64 (b.pieces 1 0)
    omega
  have hlw0 : (0 : Int) ≤ ((bitList (b.pieces WHITE PAWN)).length : Int) := by positivity
  have hlb0 : (0 : Int) ≤ ((bitList (b.pieces BLACK PAWN)).length : Int) := by positivity
  rw [evaluate_decompose, MATE]
  rw [abs_lt]
  split_ifs <;> constructor <;> nlinarith [hM.1, hM.2, hC.1, hC.2, hK.1, hK.2, hW.1, hW.2,
    hB.1, hB.2, hlw, hlb, hlw0, hlb0]


theorem claim_C10_witness : |(Board.init K0).evaluate| < MATE - 1000 :=
  claim_C10_eval_below_mate_threshold (Board.init K0) ((init_WF K0).2.1) (by decide)

end Engine
